import Mathlib

/-!
Verification development for a documentation-crawling pipeline.

The Python sources are shallowly embedded: Python strings become `List Char`
(`PyStr`), pure functions become Lean functions, and the stateful frontier
queue / throttle become explicit state-passing functions.  External stdlib
collaborators (`urllib.parse`, `posixpath`, `urllib.robotparser`) are modelled
at their interface with the CPython semantics the sources rely on; simplifications
are noted in doc comments where they occur.
-/

set_option maxRecDepth 10000

/-- Python `str` is modelled as a list of characters. -/
abbrev PyStr := List Char

/-- Coerce a Lean string literal into the `PyStr` model. -/
def pys (s : String) : PyStr := s.data

namespace Py

/-- ASCII lower-casing of one character (models `str.lower` on the ASCII
subset, which is all the sources rely on for schemes/hosts). -/
def lowerChar (c : Char) : Char :=
  if 'A' ≤ c ∧ c ≤ 'Z' then Char.ofNat (c.toNat + 32) else c

/-- Model of Python `str.lower` (ASCII subset). -/
def lower (s : PyStr) : PyStr := s.map lowerChar

/-- Python `str.isspace` characters relevant to `str.strip()`. -/
def isSpaceChar (c : Char) : Bool :=
  c = ' ' ∨ c = '\t' ∨ c = '\n' ∨ c = '\r' ∨ c = '\x0b' ∨ c = '\x0c'

/-- Model of Python `str.lstrip()` (no argument: strips whitespace). -/
def lstrip (s : PyStr) : PyStr := s.dropWhile isSpaceChar

/-- Model of Python `str.rstrip()` (no argument: strips whitespace). -/
def rstrip (s : PyStr) : PyStr := (s.reverse.dropWhile isSpaceChar).reverse

/-- Model of Python `str.strip()` (no argument: strips whitespace). -/
def strip (s : PyStr) : PyStr := rstrip (lstrip s)

/-- Model of Python `str.lstrip(chars)`. -/
def lstripChars (cs : PyStr) (s : PyStr) : PyStr := s.dropWhile (fun c => cs.contains c)

/-- Model of Python `str.rstrip(chars)`. -/
def rstripChars (cs : PyStr) (s : PyStr) : PyStr :=
  (s.reverse.dropWhile (fun c => cs.contains c)).reverse

/-- Model of Python `str.strip(chars)`. -/
def stripChars (cs : PyStr) (s : PyStr) : PyStr := rstripChars cs (lstripChars cs s)

/-- Split at the first occurrence of character `c`: returns the part before
and, when found, the part after (the separator removed).  Models
`s.split(c, 1)` / `s.find(c)` based dispatch in `urllib.parse`. -/
def splitFirst (c : Char) : PyStr → PyStr × Option PyStr
  | [] => ([], none)
  | x :: xs =>
    if x = c then ([], some xs)
    else
      let r := splitFirst c xs
      (x :: r.1, r.2)

/-- Model of Python `'/'`-splitting, `s.split('/')`: always returns at least
one (possibly empty) component. -/
def splitSlash : PyStr → List PyStr
  | [] => [[]]
  | c :: rest =>
    match splitSlash rest with
    | [] => [[]]
    | s :: ss => if c = '/' then [] :: s :: ss else (c :: s) :: ss

/-- Model of Python `'/'.join(parts)`. -/
def joinSlash : List PyStr → PyStr
  | [] => []
  | [s] => s
  | s :: rest => s ++ '/' :: joinSlash rest

/-- Decidable substring test, models Python `pat in s`. -/
def isSubstr (pat : PyStr) : PyStr → Bool
  | [] => pat.isPrefixOf []
  | c :: rest => pat.isPrefixOf (c :: rest) || isSubstr pat rest

/-- First index (if any) at which `pat` occurs in `s`; models `s.find(pat)`
(with `none` for `-1`). -/
def findSub (pat : PyStr) : PyStr → Option Nat
  | [] => if pat.isPrefixOf [] then some 0 else none
  | c :: rest =>
    if pat.isPrefixOf (c :: rest) then some 0
    else (findSub pat rest).map (· + 1)

/-- Helper for `splitlines`: accumulates the current line (reversed). -/
def splitlinesAux : PyStr → PyStr → List PyStr
  | acc, [] => [acc.reverse]
  | acc, c :: rest =>
    if c = '\n' then acc.reverse :: splitlinesAux [] rest
    else splitlinesAux (c :: acc) rest

/-- Model of Python `str.splitlines` restricted to `'\n'` separators (the
robots.txt bodies the sources feed it).  The empty string yields `[]`. -/
def splitlines (s : PyStr) : List PyStr :=
  if s = [] then [] else splitlinesAux [] s

end Py

/-! ## Model of `urllib.parse` (CPython semantics used by `src/utils.py`)

Notes on fidelity: CPython additionally strips ASCII control characters and
spaces from the ends of the URL and removes embedded tab/newline characters
before parsing; valid URLs contain none of those, and the sources never rely
on that sanitization, so it is omitted here. -/

/-- Result of `urllib.parse.urlsplit`. -/
structure UrlSplitResult where
  scheme : PyStr
  netloc : PyStr
  path : PyStr
  query : PyStr
  fragment : PyStr
  deriving Repr, DecidableEq

/-- Result of `urllib.parse.urlparse` (split result plus `params`). -/
structure UrlParseResult where
  scheme : PyStr
  netloc : PyStr
  path : PyStr
  params : PyStr
  query : PyStr
  fragment : PyStr
  deriving Repr, DecidableEq

/-- Characters allowed in a URL scheme (`urllib.parse.scheme_chars`). -/
def isSchemeChar (c : Char) : Bool :=
  c.isAlpha || c.isDigit || c = '+' || c = '-' || c = '.'

/-- Schemes for which relative joining applies (`urllib.parse.uses_relative`). -/
def uses_relative : List PyStr :=
  [pys "", pys "ftp", pys "http", pys "gopher", pys "nntp", pys "imap",
   pys "wais", pys "file", pys "https", pys "shttp", pys "mms",
   pys "prospero", pys "rtsp", pys "rtspu", pys "sftp", pys "svn",
   pys "svn+ssh", pys "ws", pys "wss"]

/-- Schemes that use a network location (`urllib.parse.uses_netloc`). -/
def uses_netloc : List PyStr :=
  [pys "", pys "ftp", pys "http", pys "gopher", pys "nntp", pys "telnet",
   pys "imap", pys "wais", pys "file", pys "mms", pys "https", pys "shttp",
   pys "snews", pys "prospero", pys "rtsp", pys "rtspu", pys "rsync",
   pys "svn", pys "svn+ssh", pys "sftp", pys "nfs", pys "git",
   pys "git+ssh", pys "ws", pys "wss"]

/-- Schemes whose paths may carry `;params` (`urllib.parse.uses_params`). -/
def uses_params : List PyStr :=
  [pys "", pys "ftp", pys "hdl", pys "prospero", pys "http", pys "imap",
   pys "https", pys "shttp", pys "rtsp", pys "rtsps", pys "rtspu",
   pys "sip", pys "sips", pys "mms", pys "sftp", pys "tel"]

/-- Scheme detection step of `urlsplit`: the text before the first `':'` is
taken as the scheme when it is non-empty, starts with a letter and consists
of scheme characters; the scheme is lower-cased. -/
def urlsplitScheme (url : PyStr) : PyStr × PyStr :=
  match Py.splitFirst ':' url with
  | (c :: cs, some after) =>
    if c.isAlpha && (c :: cs).all isSchemeChar then (Py.lower (c :: cs), after)
    else ([], url)
  | _ => ([], url)

/-- `urllib.parse._splitnetloc`: the netloc runs until the first of
`'/'`, `'?'`, `'#'`. -/
def splitnetloc : PyStr → PyStr × PyStr
  | [] => ([], [])
  | c :: rest =>
    if c = '/' ∨ c = '?' ∨ c = '#' then ([], c :: rest)
    else
      let r := splitnetloc rest
      (c :: r.1, r.2)

/-- `urlsplit` with a default scheme (used by `urljoin`); `none` models the
`ValueError` raised on an unbalanced bracketed host. -/
def pyUrlsplitWith (defscheme : PyStr) (url : PyStr) : Option UrlSplitResult :=
  let sr := urlsplitScheme url
  let scheme := if sr.1 = [] then defscheme else sr.1
  let rest1 := sr.2
  let nr := if rest1.take 2 = ['/', '/'] then splitnetloc (rest1.drop 2) else ([], rest1)
  let netloc := nr.1
  if (netloc.contains '[' ∧ ¬ netloc.contains ']') ∨
      (netloc.contains ']' ∧ ¬ netloc.contains '[') then none
  else
    let fr := Py.splitFirst '#' nr.2
    let fragment := fr.2.getD []
    let qr := Py.splitFirst '?' fr.1
    some ⟨scheme, netloc, qr.1, qr.2.getD [], fragment⟩

/-- `urllib.parse.urlsplit`. -/
def pyUrlsplit (url : PyStr) : Option UrlSplitResult := pyUrlsplitWith [] url

/-- Suffix of `s` after its last `'/'` (everything when there is none), and
the complementary prefix (which ends in `'/'` when a slash exists). -/
def splitAtLastSlash (s : PyStr) : PyStr × PyStr :=
  let tail := (s.reverse.takeWhile (· ≠ '/')).reverse
  (s.take (s.length - tail.length), tail)

/-- `urllib.parse._splitparams`: split `;params` off the last path segment. -/
def splitparams (url : PyStr) : PyStr × PyStr :=
  if url.contains '/' then
    let pieces := splitAtLastSlash url
    match Py.splitFirst ';' pieces.2 with
    | (_, none) => (url, [])
    | (before, some after) => (pieces.1 ++ before, after)
  else
    match Py.splitFirst ';' url with
    | (before, some after) => (before, after)
    | (_, none) => (url, [])

/-- `urllib.parse.urlparse` with a default scheme. -/
def pyUrlparseWith (defscheme : PyStr) (url : PyStr) : Option UrlParseResult :=
  (pyUrlsplitWith defscheme url).map fun r =>
    let pp :=
      if uses_params.contains r.scheme ∧ r.path.contains ';' then splitparams r.path
      else (r.path, [])
    ⟨r.scheme, r.netloc, pp.1, pp.2, r.query, r.fragment⟩

/-- `urllib.parse.urlparse`. -/
def pyUrlparse (url : PyStr) : Option UrlParseResult := pyUrlparseWith [] url

/-- `urllib.parse.urlunsplit` (CPython 3.11: the `//` is re-attached when a
netloc is present, or when the scheme uses a netloc and the path does not
already begin with `//`). -/
def urlunsplit (scheme netloc url query fragment : PyStr) : PyStr :=
  let url :=
    if netloc ≠ [] ∨ (scheme ≠ [] ∧ uses_netloc.contains scheme ∧ url.take 2 ≠ ['/', '/']) then
      '/' :: '/' :: (netloc ++ (if url ≠ [] ∧ url.take 1 ≠ ['/'] then '/' :: url else url))
    else url
  let url := if scheme ≠ [] then scheme ++ ':' :: url else url
  let url := if query ≠ [] then url ++ '?' :: query else url
  if fragment ≠ [] then url ++ '#' :: fragment else url

/-- `urllib.parse.urlunparse`. -/
def urlunparse (scheme netloc url params query fragment : PyStr) : PyStr :=
  urlunsplit scheme netloc (if params ≠ [] then url ++ ';' :: params else url) query fragment

/-- Segment-resolution loop of `urljoin`. -/
def urljoinResolve (segments : List PyStr) : List PyStr :=
  (segments.foldl
    (fun acc seg =>
      if seg = pys ".." then acc.tail
      else if seg = pys "." then acc
      else seg :: acc)
    []).reverse

/-- `urllib.parse.urljoin`; `none` models a `ValueError` escaping from
`urlparse`. -/
def urljoin (base url : PyStr) : Option PyStr :=
  if base = [] then some url
  else if url = [] then some base
  else
    match pyUrlparseWith [] base with
    | none => none
    | some b =>
      match pyUrlparseWith b.scheme url with
      | none => none
      | some u =>
        if u.scheme ≠ b.scheme ∨ ¬ uses_relative.contains u.scheme then some url
        else
          let netloc0 := u.netloc
          if uses_netloc.contains u.scheme ∧ netloc0 ≠ [] then
            some (urlunparse u.scheme netloc0 u.path u.params u.query u.fragment)
          else
            let netloc := if uses_netloc.contains u.scheme then b.netloc else netloc0
            if u.path = [] ∧ u.params = [] then
              let query := if u.query = [] then b.query else u.query
              some (urlunparse u.scheme netloc b.path b.params query u.fragment)
            else
              let base_parts0 := Py.splitSlash b.path
              let base_parts :=
                if base_parts0.getLast? ≠ some [] then base_parts0.dropLast else base_parts0
              let segments :=
                if u.path.take 1 = ['/'] then Py.splitSlash u.path
                else
                  let segs := base_parts ++ Py.splitSlash u.path
                  match segs with
                  | [] => []
                  | [s] => [s]
                  | s :: rest =>
                    s :: ((rest.dropLast.filter (· ≠ [])) ++
                      (match rest.getLast? with | some l => [l] | none => []))
              let resolved := urljoinResolve segments
              let resolved :=
                if segments.getLast? = some (pys ".") ∨ segments.getLast? = some (pys "..") then
                  resolved ++ [[]]
                else resolved
              let joined := Py.joinSlash resolved
              let path := if joined = [] then ['/'] else joined
              some (urlunparse u.scheme netloc path u.params u.query u.fragment)

/-! ## Model of `posixpath` (used by `src/utils.py`) -/

/-- One step of `posixpath.normpath`'s component loop; the accumulator is the
`new_comps` stack kept in reverse (head = most recently appended). -/
def normpathStep (k : Nat) (acc : List PyStr) (comp : PyStr) : List PyStr :=
  if comp = [] ∨ comp = pys "." then acc
  else if comp ≠ pys ".." ∨ (k = 0 ∧ acc = []) ∨ acc.head? = some (pys "..") then comp :: acc
  else match acc with
    | _ :: t => t
    | [] => []

/-- `posixpath.normpath`. -/
def pyNormpath (path : PyStr) : PyStr :=
  if path = [] then pys "."
  else
    let k : Nat :=
      if path.take 1 = ['/'] then
        if path.take 2 = ['/', '/'] ∧ path.take 3 ≠ ['/', '/', '/'] then 2 else 1
      else 0
    let comps := Py.splitSlash path
    let newComps := (comps.foldl (normpathStep k) []).reverse
    let joined := List.replicate k '/' ++ Py.joinSlash newComps
    if joined = [] then pys "." else joined

/-- `posixpath.dirname`. -/
def pyDirname (p : PyStr) : PyStr :=
  let head := (splitAtLastSlash p).1
  if head ≠ [] ∧ ¬ head.all (· = '/') then Py.rstripChars (pys "/") head else head

/-! ## `src/utils.py` -/

/-- `utils._normalized_path`. -/
def normalized_path (path : PyStr) : PyStr :=
  if path = [] then pys "/"
  else
    let path := if path.take 1 ≠ ['/'] then '/' :: path else path
    let normalized := pyNormpath path
    let normalized :=
      if path.getLast? = some '/' ∧ normalized.getLast? ≠ some '/' then normalized ++ ['/']
      else normalized
    let normalized := if normalized.take 1 ≠ ['/'] then '/' :: normalized else normalized
    if normalized = [] then pys "/" else normalized

/-- `utils.normalize_url`.  `none` models both the `return None` paths and a
`ValueError` escaping from `urlparse`; the Python `not base_url` test is
falsy for both `None` and the empty string. -/
def normalize_url (url : PyStr) (base_url : Option PyStr) : Option PyStr :=
  if url = [] then none
  else
    match pyUrlparse url with
    | none => none
    | some parsed0 =>
      let parsedOpt : Option UrlParseResult :=
        if parsed0.scheme = [] then
          match base_url with
          | none => none
          | some b =>
            if b = [] then none
            else match urljoin b url with
              | none => none
              | some joined => pyUrlparse joined
        else some parsed0
      match parsedOpt with
      | none => none
      | some parsed =>
        if Py.lower parsed.scheme = pys "http" ∨ Py.lower parsed.scheme = pys "https" then
          some (urlunparse (Py.lower parsed.scheme) (Py.lower parsed.netloc)
            (normalized_path parsed.path) [] parsed.query [])
        else none

/-- `utils.derive_parent_url`. -/
def derive_parent_url (url : PyStr) : Option PyStr :=
  (pyUrlparse url).map fun parsed =>
    let path0 := normalized_path parsed.path
    let path := if path0 = [] then pys "/" else path0
    let parent_path := pyDirname (Py.rstripChars (pys "/") path)
    let parent_path := if parent_path.take 1 ≠ ['/'] then '/' :: parent_path else parent_path
    let parent_path := if parent_path ≠ pys "/" then parent_path ++ ['/'] else parent_path
    urlunparse (Py.lower parsed.scheme) (Py.lower parsed.netloc)
      (if parent_path = [] then pys "/" else parent_path) [] [] []

/-- `utils.shares_same_parent`. -/
def shares_same_parent (url : PyStr) (parent_url : PyStr) : Option Bool :=
  if parent_url = [] then some true
  else (derive_parent_url url).map (fun d => d = parent_url)

/-- `utils.is_within_scope`. -/
def is_within_scope (url : PyStr) (scope_url : PyStr) : Option Bool :=
  if scope_url = [] then some true
  else
    match pyUrlparse url, pyUrlparse scope_url with
    | some candidate, some scope =>
      if candidate.scheme = [] ∨ candidate.netloc = [] then some false
      else if Py.lower candidate.scheme ≠ Py.lower scope.scheme then some false
      else if Py.lower candidate.netloc ≠ Py.lower scope.netloc then some false
      else
        let candidate_path := normalized_path candidate.path
        let scope_path := normalized_path scope.path
        if scope_path = pys "/" then some true
        else if scope_path.getLast? = some '/' then
          some (scope_path.isPrefixOf candidate_path)
        else
          some (candidate_path = scope_path ∨
            (scope_path ++ ['/']).isPrefixOf candidate_path)
    | _, _ => none

/-- `utils.domain_key`. -/
def domain_key (url : PyStr) : Option PyStr :=
  (pyUrlparse url).map fun parsed =>
    Py.lower parsed.scheme ++ pys "://" ++ Py.lower parsed.netloc

/-- Character class of `utils._SANITIZE_RE`'s complement: the characters a
slug keeps, `[a-zA-Z0-9_.-]`. -/
def isSlugChar (c : Char) : Bool :=
  c.isAlpha || c.isDigit || c = '_' || c = '.' || c = '-'

/-- Replace every maximal run of non-slug characters by a single `'-'`
(models `_SANITIZE_RE.sub("-", s)`); the flag records whether the previous
character was part of such a run. -/
def sanitizeSub : Bool → PyStr → PyStr
  | _, [] => []
  | inRun, c :: rest =>
    if isSlugChar c then c :: sanitizeSub false rest
    else if inRun then sanitizeSub true rest
    else '-' :: sanitizeSub true rest

/-- `utils._slugify`. -/
def slugify (segment : PyStr) : PyStr :=
  let s := sanitizeSub false (Py.lower (Py.strip segment))
  let s := Py.stripChars (pys "-._") s
  if s = [] then pys "index" else s

/-- `utils.build_markdown_path`, modelled as the list of path components the
function appends under `base_dir` (the `mkdir` side effect is dropped; the
final element is the file name).  `md5hex` abstracts `hashlib.md5(...).
hexdigest()`, an external collaborator whose output is a 32-character hex
string; `none` models a `ValueError` escaping from `urlparse`. -/
def build_markdown_path (md5hex : PyStr → PyStr) (base_dir : List PyStr)
    (url : PyStr) : Option (List PyStr) :=
  (pyUrlparse url).map fun parsed =>
    let netlocPart := Py.lower parsed.netloc
    let path_segments0 := (Py.splitSlash parsed.path).filter (· ≠ [])
    let path_segments := if path_segments0 = [] then [pys "index"] else path_segments0
    let directory_segments :=
      if path_segments.length = 1 then [netlocPart]
      else netlocPart :: path_segments.dropLast
    let directory := base_dir ++ directory_segments.map slugify
    let filename := slugify (path_segments.getLast?.getD [])
    let filename :=
      if parsed.query ≠ [] then filename ++ '-' :: (md5hex parsed.query).take 8
      else filename
    directory ++ [filename ++ pys ".md"]

/-- `utils.choose_random_delay`: the random draw is abstracted; this returns
the clamped bounds the draw is uniform over (`max` is raised to `min` when
inverted). -/
def choose_random_delay_bounds (min_seconds max_seconds : ℚ) : ℚ × ℚ :=
  (min_seconds, if max_seconds < min_seconds then min_seconds else max_seconds)

/-! ## `src/crawl_queue.py` -/

/-- State of `CrawlQueue`: `pending` is the FIFO deque, `queued` and `seen`
are the two Python sets. -/
structure CrawlQueueState where
  parent_url : PyStr
  respect_parent : Bool
  pending : List PyStr
  queued : Finset PyStr
  seen : Finset PyStr
  deriving DecidableEq

namespace CrawlQueue

/-- `CrawlQueue.__init__`. -/
def init (parent_url : PyStr) (respect_parent : Bool) : CrawlQueueState :=
  ⟨parent_url, respect_parent, [], ∅, ∅⟩

/-- `CrawlQueue.add`; returns the updated state and the Boolean result.
`shares_same_parent` cannot actually fail on the URLs reaching it (they were
produced by `normalize_url`), and its `Option` is collapsed with `false` as
the failure default. -/
def add (s : CrawlQueueState) (url : PyStr) (base_url : Option PyStr) :
    CrawlQueueState × Bool :=
  match normalize_url url base_url with
  | none => (s, false)
  | some normalized =>
    if s.respect_parent ∧ ¬ (shares_same_parent normalized s.parent_url).getD false then
      (s, false)
    else if normalized ∈ s.queued ∨ normalized ∈ s.seen then (s, false)
    else ({ s with pending := s.pending ++ [normalized], queued := insert normalized s.queued },
          true)

/-- `CrawlQueue.extend`. -/
def extend (s : CrawlQueueState) (urls : List PyStr) (base_url : Option PyStr) :
    CrawlQueueState × Nat :=
  urls.foldl (fun acc url =>
    let r := add acc.1 url base_url
    (r.1, acc.2 + (if r.2 then 1 else 0))) (s, 0)

/-- `CrawlQueue.next_batch`: pops from the front of `pending` while the batch
is smaller than `size`, moving each URL from `queued` into `seen`. -/
def next_batch : CrawlQueueState → Nat → CrawlQueueState × List PyStr
  | s, 0 => (s, [])
  | s, size + 1 =>
    match s.pending with
    | [] => (s, [])
    | url :: rest =>
      let s1 := { s with
        pending := rest
        queued := s.queued.erase url
        seen := insert url s.seen }
      let r := next_batch s1 size
      (r.1, url :: r.2)

/-- `CrawlQueue.pending` property. -/
def pendingCount (s : CrawlQueueState) : Nat := s.pending.length

/-- `CrawlQueue.scheduled` property. -/
def scheduledCount (s : CrawlQueueState) : Nat := s.seen.card

end CrawlQueue

/-! ## `src/throttle.py` -/

/-- Python `x or 0` on an optional float: `None` becomes `0` (`0.0` is also
falsy, but `0.0 or 0` is `0` as well, so the collapse is value-preserving). -/
def pyOrZero : Option ℚ → ℚ
  | none => 0
  | some x => x

/-- `ThrottleController.wait_for_turn`, as a pure function of the drawn
jitter (`base_delay`, the result of `choose_random_delay`), the robots delay,
the current monotonic time, and the domain's previous reservation.  Returns
`(wait_for, ready_at)`: the wait that will be slept/returned and the new
reservation stored in `_last_hit`. -/
def wait_for_turn (base_delay : ℚ) (robots_delay : Option ℚ) (now : ℚ)
    (last_hit : Option ℚ) : ℚ × ℚ :=
  let enforced_delay := max base_delay (pyOrZero robots_delay)
  let wait_for :=
    match last_hit with
    | none => enforced_delay
    | some lh => max (enforced_delay - (now - lh)) base_delay
  (wait_for, now + wait_for)

/-- Seconds actually spent in `asyncio.sleep`: the code sleeps only when
`wait_for > 0`. -/
def sleptDuration (w : ℚ) : ℚ := if w > 0 then w else 0

/-- N sequential `wait_for_turn` calls for one domain: each list element is
`(jitter, robots_delay, now)`; the result lists each call's
`(wait_for, ready_at)`. -/
def throttleRun : Option ℚ → List (ℚ × Option ℚ × ℚ) → List (ℚ × ℚ)
  | _, [] => []
  | last, (j, r, t) :: rest =>
    let w := wait_for_turn j r t last
    w :: throttleRun (some w.2) rest

/-! ## Model of `urllib.robotparser` and `src/robots_manager.py`

The parser state is modelled after CPython's `RobotFileParser`: `parse`
always calls `modified()` (so `last_checked` is set after any parse, even of
an empty line list), a `*` user-agent entry becomes `default_entry`, and the
other entries keep document order.  The percent quote/unquote round-trip in
`can_fetch` is omitted (it only affects rule matching for escaped URLs). -/

/-- One `Allow`/`Disallow` line (`robotparser.RuleLine`). -/
structure RuleLine where
  path : PyStr
  allowance : Bool
  deriving DecidableEq

/-- One user-agent section (`robotparser.Entry`). -/
structure RobotsEntry where
  useragents : List PyStr
  rulelines : List RuleLine
  delay : Option ℚ
  req_rate : Option (ℕ × ℕ)
  deriving DecidableEq

/-- `Entry.applies_to`: the agent token before the first `/`, lower-cased;
an entry applies when it lists `*` or one of its lower-cased agents occurs
as a substring. -/
def entryAppliesTo (e : RobotsEntry) (useragent : PyStr) : Bool :=
  let ua := Py.lower (Py.splitFirst '/' useragent).1
  e.useragents.any fun agent => agent == pys "*" || Py.isSubstr (Py.lower agent) ua

/-- `RuleLine.applies_to`. -/
def ruleAppliesTo (l : RuleLine) (filename : PyStr) : Bool :=
  l.path == pys "*" || l.path.isPrefixOf filename

/-- `Entry.allowance`: first matching rule wins, default allow. -/
def entryAllowance (e : RobotsEntry) (filename : PyStr) : Bool :=
  match e.rulelines.find? (fun l => ruleAppliesTo l filename) with
  | some l => l.allowance
  | none => true

/-- State of `robotparser.RobotFileParser` after parsing. -/
structure RobotFileParser where
  entries : List RobotsEntry
  default_entry : Option RobotsEntry
  disallow_all : Bool
  allow_all : Bool
  last_checked : Bool
  deriving DecidableEq

/-- The parser state produced by `parser.parse([])`: `modified()` has run
(`last_checked` set) but no entries exist and no `allow_all`/`disallow_all`
flag is raised. -/
def emptyParsedRobots : RobotFileParser :=
  ⟨[], none, false, false, true⟩

/-- `RobotFileParser.can_fetch`. -/
def robotsCanFetch (p : RobotFileParser) (useragent url : PyStr) : Bool :=
  if p.disallow_all then false
  else if p.allow_all then true
  else if ¬ p.last_checked then false
  else
    let url1 :=
      match pyUrlparse url with
      | some parsed => urlunparse [] [] parsed.path parsed.params parsed.query parsed.fragment
      | none => url
    let url2 := if url1 = [] then pys "/" else url1
    match p.entries.find? (fun e => entryAppliesTo e useragent) with
    | some e => entryAllowance e url2
    | none =>
      match p.default_entry with
      | some d => entryAllowance d url2
      | none => true

/-- `RobotFileParser.crawl_delay`. -/
def robotsCrawlDelay (p : RobotFileParser) (useragent : PyStr) : Option ℚ :=
  if ¬ p.last_checked then none
  else
    match p.entries.find? (fun e => entryAppliesTo e useragent) with
    | some e => e.delay
    | none =>
      match p.default_entry with
      | some d => d.delay
      | none => none

/-- `RobotFileParser.request_rate`. -/
def robotsRequestRate (p : RobotFileParser) (useragent : PyStr) : Option (ℕ × ℕ) :=
  if ¬ p.last_checked then none
  else
    match p.entries.find? (fun e => entryAppliesTo e useragent) with
    | some e => e.req_rate
    | none =>
      match p.default_entry with
      | some d => d.req_rate
      | none => none

/-- Python `x or 0.0` on an optional delay (see `pyOrZero`). -/
def pyFloatOrZero : Option ℚ → ℚ
  | none => 0
  | some d => d

/-- `RobotsManager._extract_delay`.  A request rate is a
`(requests, seconds)` pair of the non-negative integers CPython's parser
produces from `isdigit`-validated tokens. -/
def extract_delay (p : RobotFileParser) (user_agent : PyStr) : ℚ :=
  let delay :=
    match robotsCrawlDelay p user_agent with
    | none => robotsCrawlDelay p (pys "*")
    | some d => some d
  let rate :=
    match robotsRequestRate p user_agent with
    | none => robotsRequestRate p (pys "*")
    | some r => some r
  let rate_delay : ℚ :=
    match rate with
    | some rr => if rr.1 ≠ 0 then (rr.2 : ℚ) / ((max rr.1 1 : ℕ) : ℚ) else 0
    | none => 0
  max (pyFloatOrZero delay) (if rate_delay = 0 then 0 else rate_delay)

/-- `RobotsInfo` (the dataclass in `src/robots_manager.py`). -/
structure RobotsInfo where
  url : PyStr
  parser : RobotFileParser
  raw_text : PyStr
  crawl_delay : ℚ
  deriving DecidableEq

/-- `RobotsInfo.can_fetch`: the parser object is always truthy, so the
`if not self.parser` guard never fires. -/
def RobotsInfo.canFetch (info : RobotsInfo) (user_agent target_url : PyStr) : Bool :=
  robotsCanFetch info.parser user_agent target_url

/-- Outcome of the `httpx` GET for robots.txt: a raised exception, or a
response with a status code and a text body. -/
inductive FetchOutcome where
  | failure
  | response (status : Nat) (body : PyStr)
  deriving DecidableEq

/-- `RobotsManager._download`.  `parseFn` abstracts
`RobotFileParser.parse` (an external stdlib collaborator); the text handed
to it is exactly what the source computes: the body for a 200 response,
`""` for any failure, non-200 status, or empty body. -/
def download (parseFn : List PyStr → RobotFileParser) (user_agent robots_url : PyStr)
    (outcome : FetchOutcome) : RobotsInfo :=
  let text : PyStr :=
    match outcome with
    | .failure => []
    | .response status body => if status = 200 then body else []
  let parser := if text ≠ [] then parseFn (Py.splitlines text) else parseFn []
  let delay := extract_delay parser user_agent
  ⟨robots_url, parser, text, delay⟩

/-- `RobotsManager.allowed` for one origin and one download outcome.
`_get_info` can only return the `RobotsInfo` built by `_download` (never
`None`, so the dummy-parser branch in the source is dead code); the per-origin
cache and lock only dedupe downloads and do not change the returned value. -/
def robotsAllowed (parseFn : List PyStr → RobotFileParser) (user_agent url robots_url : PyStr)
    (outcome : FetchOutcome) : Bool × RobotsInfo :=
  let info := download parseFn user_agent robots_url outcome
  (info.canFetch user_agent url, info)

/-! ## `src/crawler_runner.py`: the `CrawlQueue` construction in
`CrawlOrchestrator.__init__` -/

/-- A formal parameter of a Python callable: its name and whether it has a
default value. -/
structure PyParam where
  name : PyStr
  has_default : Bool

/-- Whether a Python call that passes exactly the keyword arguments `kwargs`
(and no positional arguments beyond `self`) binds against `params` without a
`TypeError`: every keyword must name a declared parameter, and every
parameter without a default must be bound. -/
def bindsKeywordCall (params : List PyParam) (kwargs : List PyStr) : Bool :=
  kwargs.all (fun k => params.any (fun p => p.name == k)) &&
  params.all (fun p => p.has_default || kwargs.contains p.name)

/-- The parameters declared by `CrawlQueue.__init__` (src/crawl_queue.py
line 12): `parent_url` (required) and `respect_parent` (defaulted). -/
def crawlQueueInitParams : List PyParam :=
  [⟨pys "parent_url", false⟩, ⟨pys "respect_parent", true⟩]

/-- The keyword arguments `CrawlOrchestrator.__init__` passes to
`CrawlQueue` (src/crawler_runner.py lines 43-46): `scope_url` and
`respect_parent`. -/
def orchestratorQueueKwargs : List PyStr :=
  [pys "scope_url", pys "respect_parent"]

/-- The settings fields that reach the `CrawlQueue(...)` call. -/
structure CrawlSettingsModel where
  scope_url : PyStr
  respect_parent_path : Bool

/-- `CrawlOrchestrator.__init__` up to its first fallible step: the
`CrawlQueue` construction is the first statement after storing `settings`,
before the robots manager, throttle, browser config or any network object is
created, and `run()` is only reachable on a constructed orchestrator.  If the
keyword call binds, the queue state results; otherwise the `TypeError`
escapes. -/
def CrawlOrchestrator_init (settings : CrawlSettingsModel) : Except PyStr CrawlQueueState :=
  if bindsKeywordCall crawlQueueInitParams orchestratorQueueKwargs then
    Except.ok (CrawlQueue.init settings.scope_url settings.respect_parent_path)
  else
    Except.error (pys "TypeError: __init__() got an unexpected keyword argument")

/-! ## `src/tab_traversal.py`: `format_block` and `merge_into_markdown` -/

/-- The `TabMarkdownBlock` dataclass. -/
structure TabMarkdownBlock where
  group_title : PyStr
  tab_label : PyStr
  markdown_text : PyStr
  index : Nat
  group_index : Nat
  links : List PyStr
  deriving DecidableEq

/-- Decimal rendering of a natural number as a `PyStr`. -/
def natToPyStr (n : Nat) : PyStr := (Nat.repr n).data

/-- Value of one replacement field of the heading template; the four field
names the source substitutes are supported, anything else is a formatting
error. -/
def headingField (group label : PyStr) (idx gidx : Nat) (key : PyStr) : Option PyStr :=
  if key = pys "group" then some group
  else if key = pys "label" then some label
  else if key = pys "index" then some (natToPyStr idx)
  else if key = pys "group_index" then some (natToPyStr gidx)
  else none

/-- Scanner for Python `str.format` restricted to plain replacement fields:
doubled braces are literals, an unmatched or nested brace and an unsupported
field name raise (i.e. yield `none`, triggering the source's `except`
fallback).  Conversion/format specs (`{x!r}`, `{x:>8}`) are not modelled;
the configured templates use none. The first argument is `none` in literal
text and `some` the reversed field name while inside a field. -/
def headingFormatAux (group label : PyStr) (idx gidx : Nat) :
    Option PyStr → PyStr → Option PyStr
  | none, [] => some []
  | none, '{' :: '{' :: rest => (headingFormatAux group label idx gidx none rest).map ('{' :: ·)
  | none, ['{'] => none
  | none, '{' :: rest => headingFormatAux group label idx gidx (some []) rest
  | none, '}' :: '}' :: rest => (headingFormatAux group label idx gidx none rest).map ('}' :: ·)
  | none, '}' :: _ => none
  | none, c :: rest => (headingFormatAux group label idx gidx none rest).map (c :: ·)
  | some _, [] => none
  | some keyRev, '}' :: rest =>
    match headingField group label idx gidx keyRev.reverse with
    | some v => (headingFormatAux group label idx gidx none rest).map (v ++ ·)
    | none => none
  | some _, '{' :: _ => none
  | some keyRev, c :: rest => headingFormatAux group label idx gidx (some (c :: keyRev)) rest

/-- `TabTraversalManager._heading_for`; the manager's settings are reduced to
the one field this uses, `heading_template`. -/
def heading_for (heading_template : PyStr) (b : TabMarkdownBlock) : PyStr :=
  let template := if heading_template = [] then pys "#### [Tab: {label}]" else heading_template
  let group := if b.group_title = [] then pys "Tabs" else b.group_title
  let label := if b.tab_label = [] then pys "Tab" else b.tab_label
  match headingFormatAux group label (b.index + 1) (b.group_index + 1) none template with
  | some s => Py.strip s
  | none => pys "#### [Tab: " ++ group ++ pys " - " ++ label ++ pys "]"

/-- `TabTraversalManager.format_block`. -/
def format_block (heading_template : PyStr) (b : TabMarkdownBlock) : PyStr :=
  heading_for heading_template b ++ pys "\n\n" ++ Py.strip b.markdown_text

/-- Strict order on the sort key `(group_index, index)`. -/
def blockKeyLt (a b : TabMarkdownBlock) : Bool :=
  a.group_index < b.group_index ∨ (a.group_index = b.group_index ∧ a.index < b.index)

/-- Stable insertion: `x` goes before the first element whose key is not
strictly below `x`'s, so original order is kept among equal keys, as with
Python's stable `sorted`. -/
def stableInsert (x : TabMarkdownBlock) : List TabMarkdownBlock → List TabMarkdownBlock
  | [] => [x]
  | y :: ys => if blockKeyLt y x then y :: stableInsert x ys else x :: y :: ys

/-- `sorted(blocks, key=lambda b: (b.group_index, b.index))`. -/
def sortBlocks : List TabMarkdownBlock → List TabMarkdownBlock
  | [] => []
  | x :: xs => stableInsert x (sortBlocks xs)

/-- Grouping by `group_index` of an already sorted list: equal keys are
contiguous there, so the insertion-ordered dict of the source enumerates
exactly these runs, in order. -/
def groupRuns : List TabMarkdownBlock → List (List TabMarkdownBlock)
  | [] => []
  | b :: rest =>
    match groupRuns rest with
    | [] => [[b]]
    | g :: gs =>
      match g with
      | [] => [b] :: gs
      | c :: _ => if c.group_index = b.group_index then (b :: g) :: gs else [b] :: g :: gs

/-- `"\n\n".join(parts)`. -/
def joinParagraphs : List PyStr → PyStr
  | [] => []
  | [s] => s
  | s :: rest => s ++ pys "\n\n" ++ joinParagraphs rest

/-- Body of the per-group loop of `merge_into_markdown`: given the current
document `text` and one group's blocks (in sorted order), insert the
heading-prefixed extras after the anchor text when it is found, else append
them at the end; a group without extras leaves `text` unchanged. -/
def mergeGroup (heading_template : PyStr) (text : PyStr)
    (group_blocks : List TabMarkdownBlock) : PyStr :=
  let anchor := group_blocks.find? (fun b => b.index = 0)
  let extras := group_blocks.filter (fun b => 0 < b.index)
  if extras = [] then text
  else
    let insertion := joinParagraphs (extras.map (format_block heading_template))
    let inserted : Option PyStr :=
      match anchor with
      | some a =>
        let anchor_text := Py.strip a.markdown_text
        if anchor_text ≠ [] then
          match Py.findSub anchor_text text with
          | some pos =>
            some (text.take (pos + anchor_text.length) ++ pys "\n\n" ++ insertion ++
              text.drop (pos + anchor_text.length))
          | none => none
        else none
      | none => none
    match inserted with
    | some t => t
    | none => if text ≠ [] then Py.rstrip text ++ pys "\n\n" ++ insertion else insertion

/-- `TabTraversalManager.merge_into_markdown`. -/
def merge_into_markdown (heading_template : PyStr) (base_markdown : PyStr)
    (blocks : List TabMarkdownBlock) : PyStr :=
  (groupRuns (sortBlocks blocks)).foldl (mergeGroup heading_template) (Py.strip base_markdown)

/-! ## Claims -/

/-- C2: for every settings bundle, `CrawlOrchestrator.__init__` raises a
`TypeError` before any fetch: it calls `CrawlQueue` with keyword `scope_url`,
but `CrawlQueue.__init__` declares `parent_url`, so the keyword call never
binds and `run()` can never start a crawl. -/
theorem orchestrator_init_always_raises (settings : CrawlSettingsModel) :
    bindsKeywordCall crawlQueueInitParams orchestratorQueueKwargs = false ∧
    CrawlOrchestrator_init settings =
      Except.error (pys "TypeError: __init__() got an unexpected keyword argument") :=
  ⟨rfl, rfl⟩

/-- C1 (failing input): under scope root `https://ex.com/docs/` with parent
enforcement enabled, the depth-2 descendant `https://ex.com/docs/a/b` is
inside the scope subtree by the repository's own `is_within_scope` (and its
normalization is a path-segment descendant of the root), yet `CrawlQueue.add`
rejects it, while the direct child `https://ex.com/docs/page` is accepted and
the raw-prefix sibling `https://ex.com/docsx` is rejected. -/
theorem add_rejects_nested_descendant :
    is_within_scope (pys "https://ex.com/docs/a/b") (pys "https://ex.com/docs/") = some true ∧
    normalize_url (pys "https://ex.com/docs/a/b") none = some (pys "https://ex.com/docs/a/b") ∧
    (CrawlQueue.add (CrawlQueue.init (pys "https://ex.com/docs/") true)
      (pys "https://ex.com/docs/a/b") none).2 = false ∧
    (CrawlQueue.add (CrawlQueue.init (pys "https://ex.com/docs/") true)
      (pys "https://ex.com/docs/page") none).2 = true ∧
    (CrawlQueue.add (CrawlQueue.init (pys "https://ex.com/docs/") true)
      (pys "https://ex.com/docsx") none).2 = false := by
  refine ⟨by decide, by decide, by decide, by decide, by decide⟩

/-- The claim's wording of the resolved explicit crawl delay: taken from the
caller's user-agent directives when present, otherwise from the wildcard
agent's; a missing value contributes 0. -/
def specExplicitDelay (p : RobotFileParser) (user_agent : PyStr) : ℚ :=
  (match robotsCrawlDelay p user_agent with
   | some d => some d
   | none => robotsCrawlDelay p (pys "*")).getD 0

/-- The claim's wording of the request-rate-derived delay: seconds divided by
requests for the resolved rate (caller's agent first, wildcard as fallback),
0 when missing.  Division by a zero request count is 0 in `ℚ`, which matches
the code's falsy-requests guard. -/
def specRateDelay (p : RobotFileParser) (user_agent : PyStr) : ℚ :=
  match (match robotsRequestRate p user_agent with
         | some r => some r
         | none => robotsRequestRate p (pys "*")) with
  | some rr => (rr.2 : ℚ) / (rr.1 : ℚ)
  | none => 0

/-- The rate-delay expression of the source (falsy-request guard, `max` with
1 in the denominator, falsy collapse of a zero delay) equals plain
seconds-by-requests division. -/
lemma ratDivMax (req sec : ℕ) :
    (if (if req ≠ 0 then (sec : ℚ) / ((max req 1 : ℕ) : ℚ) else 0) = 0 then (0 : ℚ)
     else if req ≠ 0 then (sec : ℚ) / ((max req 1 : ℕ) : ℚ) else 0) =
      (sec : ℚ) / (req : ℚ) := by
  by_cases h : req = 0
  · subst h; simp
  · have hm : max req 1 = req := Nat.max_eq_left (Nat.one_le_iff_ne_zero.mpr h)
    rw [if_pos h, hm]
    by_cases hz : (sec : ℚ) / (req : ℚ) = 0
    · rw [if_pos hz, hz]
    · rw [if_neg hz]

/-- C7: for every parsed robots directive set, `_extract_delay` returns the
maximum of the explicit Crawl-delay and the request-rate-derived delay
(seconds divided by requests), each resolved from the caller's user-agent
directives with wildcard fallback, with missing values contributing 0. -/
theorem extract_delay_eq_max_of_sources (p : RobotFileParser) (user_agent : PyStr) :
    extract_delay p user_agent =
      max (specExplicitDelay p user_agent) (specRateDelay p user_agent) := by
  have hif : ∀ x : ℚ, (if x = 0 then (0 : ℚ) else x) = x := by
    intro x; by_cases h : x = 0 <;> simp [h]
  unfold extract_delay specExplicitDelay specRateDelay pyFloatOrZero
  cases hd : robotsCrawlDelay p user_agent <;> cases hr : robotsRequestRate p user_agent <;>
    cases hd2 : robotsCrawlDelay p (pys "*") <;> cases hr2 : robotsRequestRate p (pys "*") <;>
    dsimp only <;> (try rw [ratDivMax]) <;> simp [hif]

/-- The download outcomes C6 ranges over: a network error, a non-200 status,
or an empty body. -/
def fetchFailed : FetchOutcome → Prop
  | .failure => True
  | .response status body => status ≠ 200 ∨ body = []

/-- C6: whenever the robots.txt download fails, returns non-200, or has an
empty body, `RobotsManager.allowed` returns `true` together with a
`RobotsInfo` whose `crawl_delay` is 0 and whose `raw_text` is empty — the
failure is absorbed as a permissive default.  `parseFn` abstracts the stdlib
`RobotFileParser.parse`; parsing the empty line list yields the empty parser
state. -/
theorem robots_failure_is_permissive_default
    (parseFn : List PyStr → RobotFileParser) (user_agent url robots_url : PyStr)
    (outcome : FetchOutcome)
    (hparse : parseFn [] = emptyParsedRobots)
    (hfail : fetchFailed outcome) :
    (robotsAllowed parseFn user_agent url robots_url outcome).1 = true ∧
    (robotsAllowed parseFn user_agent url robots_url outcome).2.crawl_delay = 0 ∧
    (robotsAllowed parseFn user_agent url robots_url outcome).2.raw_text = [] := by
  have htext : (download parseFn user_agent robots_url outcome).raw_text = [] := by
    cases outcome with
    | failure => rfl
    | response status body =>
      simp only [fetchFailed] at hfail
      simp only [download]
      rcases hfail with h200 | hbody
      · simp [if_neg h200]
      · subst hbody; by_cases h : status = 200 <;> simp [h]
  have hparser : (download parseFn user_agent robots_url outcome).parser = emptyParsedRobots := by
    cases outcome with
    | failure => simpa [download] using hparse
    | response status body =>
      simp only [fetchFailed] at hfail
      simp only [download]
      rcases hfail with h200 | hbody
      · simpa [if_neg h200] using hparse
      · subst hbody; by_cases h : status = 200 <;> simpa [h] using hparse
  have hdelay : (download parseFn user_agent robots_url outcome).crawl_delay = 0 := by
    have : (download parseFn user_agent robots_url outcome).crawl_delay =
        extract_delay (download parseFn user_agent robots_url outcome).parser user_agent := by
      cases outcome <;> rfl
    rw [this, hparser]
    rfl
  refine ⟨?_, hdelay, htext⟩
  show RobotsInfo.canFetch (download parseFn user_agent robots_url outcome) user_agent url = true
  unfold RobotsInfo.canFetch
  rw [hparser]
  rfl

/-- C4: `wait_for_turn` with a jitter drawn from the (clamped) configured
bounds and `required = max(jitter, robotsDelay)`: the first-ever call for a
domain waits `required`; later calls wait
`max(required − (now − ready_at), jitter)`; the new reservation is
`now + wait`; and the value returned equals the wait actually slept. -/
theorem wait_for_turn_formula (min_seconds max_seconds jitter : ℚ)
    (robots_delay : Option ℚ) (now : ℚ) (last_hit : Option ℚ)
    (hmin : 0 ≤ min_seconds)
    (hlo : (choose_random_delay_bounds min_seconds max_seconds).1 ≤ jitter)
    (hhi : jitter ≤ (choose_random_delay_bounds min_seconds max_seconds).2) :
    (last_hit = none →
      (wait_for_turn jitter robots_delay now last_hit).1 =
        max jitter (pyOrZero robots_delay)) ∧
    (∀ ready_at, last_hit = some ready_at →
      (wait_for_turn jitter robots_delay now last_hit).1 =
        max (max jitter (pyOrZero robots_delay) - (now - ready_at)) jitter) ∧
    (wait_for_turn jitter robots_delay now last_hit).2 =
      now + (wait_for_turn jitter robots_delay now last_hit).1 ∧
    sleptDuration (wait_for_turn jitter robots_delay now last_hit).1 =
      (wait_for_turn jitter robots_delay now last_hit).1 := by
  have hjit : 0 ≤ jitter := le_trans hmin hlo
  have hwait : jitter ≤ (wait_for_turn jitter robots_delay now last_hit).1 := by
    cases last_hit with
    | none => exact le_max_left _ _
    | some lh => exact le_max_right _ _
  refine ⟨?_, ?_, rfl, ?_⟩
  · intro h; subst h; rfl
  · intro ready_at h; subst h; rfl
  · unfold sleptDuration
    rcases lt_or_eq_of_le (le_trans hjit hwait) with hpos | hzero
    · rw [if_pos hpos]
    · rw [if_neg (by rw [← hzero]; exact lt_irrefl 0)]
      exact hzero

/-- Witness for C4 at concrete inputs. -/
theorem wait_for_turn_formula_witness :
    (some (8 : ℚ) = none →
      (wait_for_turn 2 (some 5) 10 (some (8 : ℚ))).1 = max 2 (pyOrZero (some 5))) ∧
    (∀ ready_at : ℚ, some (8 : ℚ) = some ready_at →
      (wait_for_turn 2 (some 5) 10 (some (8 : ℚ))).1 =
        max (max 2 (pyOrZero (some 5)) - (10 - ready_at)) 2) ∧
    (wait_for_turn 2 (some 5) 10 (some (8 : ℚ))).2 =
      10 + (wait_for_turn 2 (some 5) 10 (some (8 : ℚ))).1 ∧
    sleptDuration (wait_for_turn 2 (some 5) 10 (some (8 : ℚ))).1 =
      (wait_for_turn 2 (some 5) 10 (some (8 : ℚ))).1 :=
  wait_for_turn_formula 1 3 2 (some 5) 10 (some 8) (by norm_num)
    (by norm_num [choose_random_delay_bounds]) (by norm_num [choose_random_delay_bounds])

/-- Every wait computed by `wait_for_turn` is at least the jitter drawn for
that call. -/
lemma wait_for_turn_ge_jitter (j : ℚ) (r : Option ℚ) (t : ℚ) (last : Option ℚ) :
    j ≤ (wait_for_turn j r t last).1 := by
  cases last with
  | none => exact le_max_left _ _
  | some lh => exact le_max_right _ _

/-- After a call with prior reservation `lh`, the next stored reservation is
at least `lh` again (the wait covers at least the remaining enforced delay). -/
lemma throttleRun_head_ready_ge (min_seconds : ℚ) (hmin : 0 ≤ min_seconds)
    (calls : List (ℚ × Option ℚ × ℚ)) (lh : ℚ)
    (hj : ∀ c ∈ calls, min_seconds ≤ c.1) :
    ∀ p ∈ (throttleRun (some lh) calls).head?, lh ≤ p.2 := by
  cases calls with
  | nil => intro p hp; simp [throttleRun] at hp
  | cons c rest =>
    obtain ⟨j, r, t⟩ := c
    intro p hp
    simp only [throttleRun, List.head?_cons, Option.mem_def, Option.some.injEq] at hp
    subst hp
    have hj0 : min_seconds ≤ j := (hj (j, r, t) (List.mem_cons_self _ _))
    have h1 : max j (pyOrZero r) - (t - lh) ≤ (wait_for_turn j r t (some lh)).1 :=
      le_max_left _ _
    have h2 : j ≤ max j (pyOrZero r) := le_max_left _ _
    show lh ≤ t + (wait_for_turn j r t (some lh)).1
    have : 0 ≤ max j (pyOrZero r) := le_trans hmin (le_trans hj0 h2)
    linarith

/-- Core induction for C8, generalized over the starting reservation. -/
lemma throttleRun_spec (min_seconds : ℚ) (hmin : 0 ≤ min_seconds) :
    ∀ (calls : List (ℚ × Option ℚ × ℚ)) (start : Option ℚ),
      (∀ c ∈ calls, min_seconds ≤ c.1) →
      List.Chain' (· ≤ ·) ((throttleRun start calls).map (·.2)) ∧
      ∀ w ∈ (throttleRun start calls).map (·.1), min_seconds ≤ w := by
  intro calls
  induction calls with
  | nil => intro start _; simp [throttleRun]
  | cons c rest ih =>
    obtain ⟨j, r, t⟩ := c
    intro start hj
    have hjrest : ∀ x ∈ rest, min_seconds ≤ x.1 :=
      fun x hx => hj x (List.mem_cons_of_mem _ hx)
    obtain ⟨ihchain, ihwaits⟩ := ih (some (wait_for_turn j r t start).2) hjrest
    constructor
    · simp only [throttleRun, List.map_cons]
      rw [List.chain'_cons']
      refine ⟨?_, ihchain⟩
      intro y hy
      rw [List.head?_map, Option.mem_def, Option.map_eq_some'] at hy
      obtain ⟨p, hp, rfl⟩ := hy
      exact throttleRun_head_ready_ge min_seconds hmin rest _ hjrest p (Option.mem_def.mpr hp)
    · intro w hw
      simp only [throttleRun, List.map_cons, List.mem_cons] at hw
      rcases hw with rfl | hw
      · exact le_trans (hj (j, r, t) (List.mem_cons_self _ _)) (wait_for_turn_ge_jitter _ _ _ _)
      · exact ihwaits w hw

/-- C8: for a fixed domain and any sequence of sequential `wait_for_turn`
calls with non-decreasing clock readings and jitters drawn from the
configured bounds, the reservation recorded after each call is non-decreasing
across the sequence, and every returned wait is at least the configured
jitter minimum. -/
theorem throttle_reservations_monotone (min_seconds max_seconds : ℚ)
    (calls : List (ℚ × Option ℚ × ℚ))
    (hmin : 0 ≤ min_seconds)
    (hbounds : ∀ c ∈ calls, min_seconds ≤ c.1 ∧
      c.1 ≤ (choose_random_delay_bounds min_seconds max_seconds).2)
    (hclock : List.Chain' (fun a b : ℚ × Option ℚ × ℚ => a.2.2 ≤ b.2.2) calls) :
    List.Chain' (· ≤ ·) ((throttleRun none calls).map (·.2)) ∧
    ∀ w ∈ (throttleRun none calls).map (·.1), min_seconds ≤ w :=
  throttleRun_spec min_seconds hmin calls none (fun c hc => (hbounds c hc).1)

/-- Witness for C8: three sequential calls on one domain. -/
theorem throttle_reservations_monotone_witness :
    List.Chain' (· ≤ ·)
      ((throttleRun none [((2 : ℚ), some 5, 10), (1, none, 11), (3, some 1, 12)]).map (·.2)) ∧
    ∀ w ∈ (throttleRun none [((2 : ℚ), some 5, 10), (1, none, 11), (3, some 1, 12)]).map (·.1),
      (1 : ℚ) ≤ w :=
  throttle_reservations_monotone 1 3 [((2 : ℚ), some 5, 10), (1, none, 11), (3, some 1, 12)]
    (by norm_num)
    (by
      intro c hc
      simp only [List.mem_cons, List.not_mem_nil, or_false] at hc
      rcases hc with rfl | rfl | rfl <;> norm_num [choose_random_delay_bounds])
    (by norm_num [List.chain'_cons])

/-- Lowercase hexadecimal digit. -/
def isHexLowerChar (c : Char) : Bool := c.isDigit || ('a' ≤ c && c ≤ 'f')

/-- C10: `build_markdown_path` lays the file out as host directory, one
nested directory per non-final path segment, and the final segment (or
`index` when the path has none) as the file name, every segment slug-
sanitized; when a query exists, 8 hex characters of its digest are appended;
in particular `https://ex.com/a/b?x=1` under `/out` yields
`/out/ex.com/a/b-<8-hex>.md` with the digest a fixed function of the query.
`md5hex` is the external digest collaborator, assumed only to produce
32-character lowercase hex strings. -/
theorem build_markdown_path_layout (md5hex : PyStr → PyStr)
    (hlen : ∀ q, (md5hex q).length = 32)
    (hhex : ∀ q, ∀ c ∈ md5hex q, isHexLowerChar c = true) :
    (∀ (base_dir : List PyStr) (url : PyStr) (parsed : UrlParseResult),
      pyUrlparse url = some parsed →
      build_markdown_path md5hex base_dir url =
        some (base_dir ++ [slugify (Py.lower parsed.netloc)] ++
          (((if (Py.splitSlash parsed.path).filter (· ≠ []) = [] then [pys "index"]
             else (Py.splitSlash parsed.path).filter (· ≠ [])).dropLast).map slugify) ++
          [slugify ((if (Py.splitSlash parsed.path).filter (· ≠ []) = [] then [pys "index"]
             else (Py.splitSlash parsed.path).filter (· ≠ [])).getLast?.getD []) ++
           (if parsed.query ≠ [] then '-' :: (md5hex parsed.query).take 8 else []) ++
           pys ".md"])) ∧
    (∀ q, ((md5hex q).take 8).length = 8 ∧ ∀ c ∈ (md5hex q).take 8, isHexLowerChar c = true) ∧
    build_markdown_path md5hex [pys "/out"] (pys "https://ex.com/a/b?x=1") =
      some [pys "/out", pys "ex.com", pys "a",
        pys "b-" ++ (md5hex (pys "x=1")).take 8 ++ pys ".md"] := by
  refine ⟨?_, ?_, ?_⟩
  · intro base_dir url parsed hp
    simp only [build_markdown_path, hp, Option.map_some']
    congr 1
    by_cases hnil : (Py.splitSlash parsed.path).filter (· ≠ []) = []
    · rw [hnil]
      by_cases hq : parsed.query = [] <;> simp [hq, List.append_assoc]
    · simp only [if_neg hnil]
      obtain ⟨a, rest, hx⟩ : ∃ a rest, (Py.splitSlash parsed.path).filter (· ≠ []) = a :: rest := by
        rcases h : (Py.splitSlash parsed.path).filter (· ≠ []) with _ | ⟨a, r⟩
        · exact absurd h hnil
        · exact ⟨a, r, h⟩
      rw [hx]
      cases rest with
      | nil => by_cases hq : parsed.query = [] <;> simp [hq, List.append_assoc]
      | cons b rest2 =>
        have hlen2 : (a :: b :: rest2).length ≠ 1 := by simp
        rw [if_neg hlen2]
        by_cases hq : parsed.query = [] <;> simp [hq, List.append_assoc]
  · intro q
    constructor
    · rw [List.length_take, hlen q]; rfl
    · intro c hc
      exact hhex q c (List.mem_of_mem_take hc)
  · rfl

/-- Witness for C10 with a concrete 32-hex digest function. -/
theorem build_markdown_path_layout_witness :
    build_markdown_path (fun _ => pys "0123456789abcdef0123456789abcdef") [pys "/out"]
        (pys "https://ex.com/a/b?x=1") =
      some [pys "/out", pys "ex.com", pys "a",
        pys "b-" ++ (pys "0123456789abcdef0123456789abcdef").take 8 ++ pys ".md"] :=
  (build_markdown_path_layout (fun _ => pys "0123456789abcdef0123456789abcdef")
    (by
      intro q
      exact (by decide : (pys "0123456789abcdef0123456789abcdef").length = 32))
    (by
      intro q
      exact (by decide :
        ∀ c ∈ pys "0123456789abcdef0123456789abcdef", isHexLowerChar c = true))).2.2

/-- Witness for C6: a failed robots.txt download on a concrete origin. -/
theorem robots_failure_is_permissive_default_witness :
    (robotsAllowed (fun _ => emptyParsedRobots) (pys "UA") (pys "https://ex.com/x")
      (pys "https://ex.com/robots.txt") FetchOutcome.failure).1 = true ∧
    (robotsAllowed (fun _ => emptyParsedRobots) (pys "UA") (pys "https://ex.com/x")
      (pys "https://ex.com/robots.txt") FetchOutcome.failure).2.crawl_delay = 0 ∧
    (robotsAllowed (fun _ => emptyParsedRobots) (pys "UA") (pys "https://ex.com/x")
      (pys "https://ex.com/robots.txt") FetchOutcome.failure).2.raw_text = [] :=
  robots_failure_is_permissive_default (fun _ => emptyParsedRobots) (pys "UA")
    (pys "https://ex.com/x") (pys "https://ex.com/robots.txt") FetchOutcome.failure
    rfl trivial

/-- Operations the public `CrawlQueue` interface exposes. -/
inductive QueueOp where
  | add (url : PyStr) (base_url : Option PyStr)
  | extend (urls : List PyStr) (base_url : Option PyStr)
  | next_batch (size : Nat)

/-- Run one operation, returning the new state and the URLs the operation
returned to the caller (`next_batch`'s batch; `[]` otherwise). -/
def runOp (s : CrawlQueueState) : QueueOp → CrawlQueueState × List PyStr
  | .add url base => ((CrawlQueue.add s url base).1, [])
  | .extend urls base => ((CrawlQueue.extend s urls base).1, [])
  | .next_batch n => CrawlQueue.next_batch s n

/-- Run a sequence of operations, concatenating everything ever returned by
`next_batch`. -/
def runOps (s : CrawlQueueState) : List QueueOp → CrawlQueueState × List PyStr
  | [] => (s, [])
  | op :: rest =>
    let r := runOp s op
    let r2 := runOps r.1 rest
    (r2.1, r.2 ++ r2.2)

/-- The queue's data invariant: `pending` holds no duplicates, `queued`
mirrors it, and `queued` is disjoint from `seen`. -/
def QueueInv (s : CrawlQueueState) : Prop :=
  s.pending.Nodup ∧ s.queued = s.pending.toFinset ∧ Disjoint s.queued s.seen

instance : DecidablePred QueueInv := fun s => by
  unfold QueueInv; infer_instance

/-- `add` preserves the invariant, never touches `seen`, and grows `pending`
by at most one; when it returns `true` its normalization is now in `queued`,
and it returns `false` whenever the normalization is already in `queued` or
`seen`. -/
lemma add_spec (s : CrawlQueueState) (url : PyStr) (base : Option PyStr)
    (hInv : QueueInv s) :
    QueueInv (CrawlQueue.add s url base).1 ∧
    (CrawlQueue.add s url base).1.seen = s.seen ∧
    (CrawlQueue.add s url base).1.pending.length ≤ s.pending.length + 1 ∧
    (∀ n, normalize_url url base = some n →
      ((CrawlQueue.add s url base).2 = false →
        (CrawlQueue.add s url base).1.pending = s.pending) ∧
      (n ∈ s.queued ∨ n ∈ s.seen → (CrawlQueue.add s url base).2 = false) ∧
      ((CrawlQueue.add s url base).2 = true → n ∈ (CrawlQueue.add s url base).1.queued)) := by
  obtain ⟨hnd, hq, hdisj⟩ := hInv
  unfold CrawlQueue.add
  cases hn : normalize_url url base with
  | none => exact ⟨⟨hnd, hq, hdisj⟩, rfl, Nat.le_succ_of_le (le_refl _), fun n h => by simp at h⟩
  | some n =>
    dsimp only
    by_cases hpar : s.respect_parent ∧ ¬ (shares_same_parent n s.parent_url).getD false
    · rw [if_pos hpar]
      exact ⟨⟨hnd, hq, hdisj⟩, rfl, Nat.le_succ_of_le (le_refl _),
        fun m hm => by
          cases hm; exact ⟨fun _ => rfl, fun _ => rfl, fun h => by simp at h⟩⟩
    · rw [if_neg hpar]
      by_cases hmem : n ∈ s.queued ∨ n ∈ s.seen
      · rw [if_pos hmem]
        exact ⟨⟨hnd, hq, hdisj⟩, rfl, Nat.le_succ_of_le (le_refl _),
          fun m hm => by
            cases hm; exact ⟨fun _ => rfl, fun _ => rfl, fun h => by simp at h⟩⟩
      · rw [if_neg hmem]
        push_neg at hmem
        obtain ⟨hnq, hns⟩ := hmem
        have hnp : n ∉ s.pending := by
          intro h
          exact hnq (hq ▸ List.mem_toFinset.mpr h)
        refine ⟨⟨?_, ?_, ?_⟩, rfl, ?_, ?_⟩
        · simpa [List.nodup_append] using ⟨hnd, fun h => hnp h⟩
        · show insert n s.queued = (s.pending ++ [n]).toFinset
          rw [hq]
          ext x
          simp [List.mem_toFinset, or_comm]
        · show Disjoint (insert n s.queued) s.seen
          rw [Finset.disjoint_insert_left]
          exact ⟨hns, hdisj⟩
        · simp
        · intro m hm
          cases hm
          refine ⟨fun h => by simp at h, fun h => ?_, fun _ => Finset.mem_insert_self _ _⟩
          · rcases h with h | h
            · exact absurd h hnq
            · exact absurd h hns

/-- `next_batch` preserves the invariant; the batch has no duplicates, lands
in `seen`, only grows `seen`, and contains nothing that was already `seen`. -/
lemma next_batch_spec : ∀ (n : Nat) (s : CrawlQueueState), QueueInv s →
    QueueInv (CrawlQueue.next_batch s n).1 ∧
    (CrawlQueue.next_batch s n).2.Nodup ∧
    (∀ u ∈ (CrawlQueue.next_batch s n).2, u ∈ (CrawlQueue.next_batch s n).1.seen) ∧
    s.seen ⊆ (CrawlQueue.next_batch s n).1.seen ∧
    (∀ u ∈ (CrawlQueue.next_batch s n).2, u ∉ s.seen) := by
  intro n
  induction n with
  | zero =>
    intro s hInv
    exact ⟨hInv, List.nodup_nil, by simp [CrawlQueue.next_batch], Finset.Subset.refl _,
      by simp [CrawlQueue.next_batch]⟩
  | succ size ih =>
    intro s hInv
    obtain ⟨hnd, hq, hdisj⟩ := hInv
    show QueueInv (CrawlQueue.next_batch s (size + 1)).1 ∧ _
    cases hp : s.pending with
    | nil =>
      unfold CrawlQueue.next_batch
      rw [hp]
      exact ⟨⟨by rw [hp]; exact List.nodup_nil, by rw [hp] at hq ⊢; exact hq, hdisj⟩,
        List.nodup_nil, by simp, Finset.Subset.refl _, by simp⟩
    | cons url rest =>
      have hndr : rest.Nodup := by rw [hp] at hnd; exact (List.nodup_cons.mp hnd).2
      have hur : url ∉ rest := by rw [hp] at hnd; exact (List.nodup_cons.mp hnd).1
      have hurlq : url ∈ s.queued := by
        rw [hq, hp]; simp
      have hurlseen : url ∉ s.seen := Finset.disjoint_left.mp hdisj hurlq
      set s1 : CrawlQueueState :=
        { s with pending := rest, queued := s.queued.erase url, seen := insert url s.seen }
        with hs1
      have hInv1 : QueueInv s1 := by
        refine ⟨hndr, ?_, ?_⟩
        · show s.queued.erase url = rest.toFinset
          rw [hq, hp, List.toFinset_cons]
          exact Finset.erase_insert (by simpa using hur)
        · show Disjoint (s.queued.erase url) (insert url s.seen)
          rw [Finset.disjoint_insert_right]
          constructor
          · exact Finset.not_mem_erase _ _
          · exact Finset.disjoint_of_subset_left (Finset.erase_subset _ _) hdisj
      obtain ⟨ih1, ih2, ih3, ih4, ih5⟩ := ih s1 hInv1
      have hstep : CrawlQueue.next_batch s (size + 1) =
          ((CrawlQueue.next_batch s1 size).1, url :: (CrawlQueue.next_batch s1 size).2) := by
        conv_lhs => rw [CrawlQueue.next_batch, hp]
      rw [hstep]
      refine ⟨ih1, ?_, ?_, ?_, ?_⟩
      · rw [List.nodup_cons]
        refine ⟨fun h => ?_, ih2⟩
        exact ih5 url h (Finset.mem_insert_self _ _)
      · intro u hu
        rcases List.mem_cons.mp hu with rfl | hu
        · exact ih4 (Finset.mem_insert_self _ _)
        · exact ih3 u hu
      · intro u hu
        exact ih4 (Finset.mem_insert_of_mem hu)
      · intro u hu
        rcases List.mem_cons.mp hu with rfl | hu
        · exact hurlseen
        · intro hus
          exact ih5 u hu (Finset.mem_insert_of_mem hus)

/-- The `extend` fold preserves the invariant and leaves `seen` unchanged. -/
lemma extend_fold_spec (base : Option PyStr) :
    ∀ (urls : List PyStr) (acc : CrawlQueueState × Nat), QueueInv acc.1 →
      QueueInv (urls.foldl (fun acc url =>
        let r := CrawlQueue.add acc.1 url base
        (r.1, acc.2 + (if r.2 then 1 else 0))) acc).1 ∧
      (urls.foldl (fun acc url =>
        let r := CrawlQueue.add acc.1 url base
        (r.1, acc.2 + (if r.2 then 1 else 0))) acc).1.seen = acc.1.seen := by
  intro urls
  induction urls with
  | nil => intro acc h; exact ⟨h, rfl⟩
  | cons u us ih =>
    intro acc h
    obtain ⟨ha, hs, _, _⟩ := add_spec acc.1 u base h
    obtain ⟨ih1, ih2⟩ := ih ((CrawlQueue.add acc.1 u base).1,
      acc.2 + (if (CrawlQueue.add acc.1 u base).2 then 1 else 0)) ha
    exact ⟨ih1, by rw [List.foldl_cons]; exact ih2.trans hs⟩

/-- Every `runOp` preserves the invariant; outputs are `seen` afterwards,
fresh relative to the starting `seen`, duplicate-free, and `seen` only
grows. -/
lemma runOp_spec (s : CrawlQueueState) (op : QueueOp) (hInv : QueueInv s) :
    QueueInv (runOp s op).1 ∧
    (runOp s op).2.Nodup ∧
    (∀ u ∈ (runOp s op).2, u ∈ (runOp s op).1.seen) ∧
    s.seen ⊆ (runOp s op).1.seen ∧
    (∀ u ∈ (runOp s op).2, u ∉ s.seen) := by
  cases op with
  | add url base =>
    obtain ⟨h1, h2, _, _⟩ := add_spec s url base hInv
    exact ⟨h1, List.nodup_nil, by simp [runOp], by rw [runOp]; exact h2 ▸ Finset.Subset.refl _,
      by simp [runOp]⟩
  | extend urls base =>
    obtain ⟨h1, h2⟩ := extend_fold_spec base urls (s, 0) hInv
    exact ⟨h1, List.nodup_nil, by simp [runOp], by
      show s.seen ⊆ (CrawlQueue.extend s urls base).1.seen
      unfold CrawlQueue.extend
      exact h2 ▸ Finset.Subset.refl _,
      by simp [runOp]⟩
  | next_batch n => exact next_batch_spec n s hInv

/-- Core induction for C5's exhaustion property. -/
lemma runOps_spec : ∀ (ops : List QueueOp) (s : CrawlQueueState), QueueInv s →
    QueueInv (runOps s ops).1 ∧
    (runOps s ops).2.Nodup ∧
    (∀ u ∈ (runOps s ops).2, u ∈ (runOps s ops).1.seen) ∧
    s.seen ⊆ (runOps s ops).1.seen ∧
    (∀ u ∈ (runOps s ops).2, u ∉ s.seen) := by
  intro ops
  induction ops with
  | nil =>
    intro s hInv
    exact ⟨hInv, List.nodup_nil, by simp [runOps], Finset.Subset.refl _, by simp [runOps]⟩
  | cons op rest ih =>
    intro s hInv
    obtain ⟨o1, o2, o3, o4, o5⟩ := runOp_spec s op hInv
    obtain ⟨i1, i2, i3, i4, i5⟩ := ih (runOp s op).1 o1
    have hrw : runOps s (op :: rest) =
        ((runOps (runOp s op).1 rest).1, (runOp s op).2 ++ (runOps (runOp s op).1 rest).2) := rfl
    rw [hrw]
    refine ⟨i1, ?_, ?_, o4.trans i4, ?_⟩
    · rw [List.nodup_append]
      refine ⟨o2, i2, fun u hu hu2 => ?_⟩
      exact i5 u hu2 (o3 u hu)
    · intro u hu
      rcases List.mem_append.mp hu with hu | hu
      · exact i4 (o3 u hu)
      · exact i3 u hu
    · intro u hu
      rcases List.mem_append.mp hu with hu | hu
      · exact o5 u hu
      · intro hs
        exact i5 u hu (o4 hs)

/-- C5: from any state satisfying it (the fresh queue does), the queue
invariant `queued ∩ seen = ∅` is preserved by every operation; two `add`
calls whose raw spellings share one normalization grow `pending` at most
once; and across any operation sequence no URL is ever returned by
`next_batch` twice, nor returned at all once it is in `seen` — even if
re-submitted via `add`. -/
theorem crawl_queue_dedup_and_exhaustion (s : CrawlQueueState) (hInv : QueueInv s) :
    (∀ p rp, QueueInv (CrawlQueue.init p rp)) ∧
    (∀ op, QueueInv (runOp s op).1 ∧ Disjoint (runOp s op).1.queued (runOp s op).1.seen) ∧
    (∀ u₁ u₂ b₁ b₂, normalize_url u₁ b₁ = normalize_url u₂ b₂ →
      (CrawlQueue.add (CrawlQueue.add s u₁ b₁).1 u₂ b₂).1.pending.length ≤
        s.pending.length + 1) ∧
    (∀ ops, (runOps s ops).2.Nodup ∧ ∀ u ∈ (runOps s ops).2, u ∉ s.seen) := by
  refine ⟨?_, ?_, ?_, ?_⟩
  · intro p rp
    exact ⟨List.nodup_nil, by simp [CrawlQueue.init], by simp [CrawlQueue.init]⟩
  · intro op
    obtain ⟨h1, _, _, _, _⟩ := runOp_spec s op hInv
    exact ⟨h1, h1.2.2⟩
  · intro u₁ u₂ b₁ b₂ heq
    obtain ⟨hInv1, _, hlen1, hcond1⟩ := add_spec s u₁ b₁ hInv
    obtain ⟨_, _, hlen2, hcond2⟩ := add_spec (CrawlQueue.add s u₁ b₁).1 u₂ b₂ hInv1
    cases hn : normalize_url u₂ b₂ with
    | none =>
      have hnoop : (CrawlQueue.add (CrawlQueue.add s u₁ b₁).1 u₂ b₂).1 =
          (CrawlQueue.add s u₁ b₁).1 := by
        unfold CrawlQueue.add
        rw [hn]
      rw [hnoop]
      exact hlen1
    | some n =>
      have hn1 : normalize_url u₁ b₁ = some n := heq.trans hn
      cases hb : (CrawlQueue.add s u₁ b₁).2 with
      | true =>
        have hq1 : n ∈ (CrawlQueue.add s u₁ b₁).1.queued := (hcond1 n hn1).2.2 hb
        have hfalse : (CrawlQueue.add (CrawlQueue.add s u₁ b₁).1 u₂ b₂).2 = false :=
          (hcond2 n hn).2.1 (Or.inl hq1)
        have hpend : (CrawlQueue.add (CrawlQueue.add s u₁ b₁).1 u₂ b₂).1.pending =
            (CrawlQueue.add s u₁ b₁).1.pending := (hcond2 n hn).1 hfalse
        rw [hpend]
        exact hlen1
      | false =>
        have hpend1 : (CrawlQueue.add s u₁ b₁).1.pending = s.pending := (hcond1 n hn1).1 hb
        calc (CrawlQueue.add (CrawlQueue.add s u₁ b₁).1 u₂ b₂).1.pending.length
            ≤ (CrawlQueue.add s u₁ b₁).1.pending.length + 1 := hlen2
          _ = s.pending.length + 1 := by rw [hpend1]
  · intro ops
    obtain ⟨_, h2, _, _, h5⟩ := runOps_spec ops s hInv
    exact ⟨h2, h5⟩

/-- Witness for C5: the fresh queue satisfies the invariant, and the theorem
applies to it. -/
theorem crawl_queue_dedup_and_exhaustion_witness :
    (∀ p rp, QueueInv (CrawlQueue.init p rp)) ∧
    (∀ op, QueueInv (runOp (CrawlQueue.init (pys "https://ex.com/docs/") true) op).1 ∧
      Disjoint (runOp (CrawlQueue.init (pys "https://ex.com/docs/") true) op).1.queued
        (runOp (CrawlQueue.init (pys "https://ex.com/docs/") true) op).1.seen) ∧
    (∀ u₁ u₂ b₁ b₂, normalize_url u₁ b₁ = normalize_url u₂ b₂ →
      (CrawlQueue.add (CrawlQueue.add (CrawlQueue.init (pys "https://ex.com/docs/") true)
          u₁ b₁).1 u₂ b₂).1.pending.length ≤
        (CrawlQueue.init (pys "https://ex.com/docs/") true).pending.length + 1) ∧
    (∀ ops, (runOps (CrawlQueue.init (pys "https://ex.com/docs/") true) ops).2.Nodup ∧
      ∀ u ∈ (runOps (CrawlQueue.init (pys "https://ex.com/docs/") true) ops).2,
        u ∉ (CrawlQueue.init (pys "https://ex.com/docs/") true).seen) :=
  crawl_queue_dedup_and_exhaustion (CrawlQueue.init (pys "https://ex.com/docs/") true) (by decide)

/-- `p` is the position of an occurrence of `pat` in `t` and no occurrence
starts earlier. -/
def firstOccurAt (t pat : PyStr) (p : Nat) : Prop :=
  pat.isPrefixOf (t.drop p) = true ∧ ∀ q < p, pat.isPrefixOf (t.drop q) = false

/-- `findSub` returns exactly the first occurrence position. -/
lemma findSub_eq_some_iff (pat : PyStr) : ∀ (t : PyStr) (p : Nat),
    Py.findSub pat t = some p ↔ firstOccurAt t pat p := by
  intro t
  induction t with
  | nil =>
    intro p
    unfold Py.findSub firstOccurAt
    by_cases h : pat.isPrefixOf ([] : PyStr) = true
    · rw [if_pos h]
      constructor
      · rintro ⟨rfl⟩
        exact ⟨h, fun q hq => absurd hq (Nat.not_lt_zero q)⟩
      · rintro ⟨h1, h2⟩
        cases p with
        | zero => rfl
        | succ p =>
          have := h2 0 (Nat.succ_pos p)
          rw [List.drop_nil] at this h1
          rw [h1] at this
          cases this
    · rw [if_neg h]
      constructor
      · rintro ⟨⟩
      · rintro ⟨h1, _⟩
        rw [List.drop_nil] at h1
        exact absurd h1 h
  | cons c rest ih =>
    intro p
    unfold Py.findSub firstOccurAt
    by_cases h : pat.isPrefixOf (c :: rest) = true
    · rw [if_pos h]
      constructor
      · rintro ⟨rfl⟩
        exact ⟨h, fun q hq => absurd hq (Nat.not_lt_zero q)⟩
      · rintro ⟨h1, h2⟩
        cases p with
        | zero => rfl
        | succ p =>
          have h0 := h2 0 (Nat.succ_pos p)
          rw [List.drop_zero] at h0
          rw [h0] at h
          cases h
    · rw [if_neg h]
      constructor
      · intro hmap
        rw [Option.map_eq_some'] at hmap
        obtain ⟨p', hp', rfl⟩ := hmap
        obtain ⟨h1, h2⟩ := (ih p').mp hp'
        refine ⟨by simpa using h1, ?_⟩
        intro q hq
        cases q with
        | zero =>
          rw [List.drop_zero]
          exact Bool.not_eq_true _ ▸ (by simpa using h)
        | succ q =>
          have := h2 q (Nat.lt_of_succ_lt_succ hq)
          simpa using this
      · rintro ⟨h1, h2⟩
        cases p with
        | zero =>
          rw [List.drop_zero] at h1
          exact absurd h1 h
        | succ p =>
          have : Py.findSub pat rest = some p := by
            rw [ih p]
            refine ⟨by simpa using h1, ?_⟩
            intro q hq
            have := h2 (q + 1) (Nat.succ_lt_succ hq)
            simpa using this
          rw [this]
          rfl

/-- `findSub` returns `none` exactly when `pat` occurs nowhere in `t`. -/
lemma findSub_eq_none_iff (pat : PyStr) : ∀ (t : PyStr),
    Py.findSub pat t = none ↔ ∀ q, pat.isPrefixOf (t.drop q) = false := by
  intro t
  induction t with
  | nil =>
    unfold Py.findSub
    by_cases h : pat.isPrefixOf ([] : PyStr) = true
    · rw [if_pos h]
      constructor
      · rintro ⟨⟩
      · intro hall
        have := hall 0
        rw [List.drop_nil] at this
        rw [h] at this
        cases this
    · rw [if_neg h]
      refine ⟨fun _ q => ?_, fun _ => rfl⟩
      rw [List.drop_nil]
      exact Bool.not_eq_true _ ▸ (by simpa using h)
  | cons c rest ih =>
    unfold Py.findSub
    by_cases h : pat.isPrefixOf (c :: rest) = true
    · rw [if_pos h]
      constructor
      · rintro ⟨⟩
      · intro hall
        have := hall 0
        rw [List.drop_zero] at this
        rw [h] at this
        cases this
    · rw [if_neg h]
      constructor
      · intro hmap q
        have hrest : Py.findSub pat rest = none := by
          cases hfs : Py.findSub pat rest with
          | none => rfl
          | some v => rw [hfs] at hmap; cases hmap
        cases q with
        | zero =>
          rw [List.drop_zero]
          exact Bool.not_eq_true _ ▸ (by simpa using h)
        | succ q =>
          have := (ih.mp hrest) q
          simpa using this
      · intro hall
        have hrest : Py.findSub pat rest = none := by
          rw [ih]
          intro q
          have := hall (q + 1)
          simpa using this
        rw [hrest]
        rfl

/-- C3: `merge_into_markdown` is the deterministic fold of the per-group
merge over the sorted, grouped blocks; a group with no `index > 0` block
leaves the document unchanged; when the group's index-0 anchor exists and
its stripped markdown text first occurs at position `p` in the current
document, the heading-prefixed extras are inserted immediately after that
occurrence; when there is no anchor, its stripped text is empty, or the text
occurs nowhere, the extras are appended at the end of the document. -/
theorem merge_into_markdown_spec (heading_template t : PyStr) (g : List TabMarkdownBlock) :
    (∀ base blocks, merge_into_markdown heading_template base blocks =
      (groupRuns (sortBlocks blocks)).foldl (mergeGroup heading_template) (Py.strip base)) ∧
    (g.filter (fun b => 0 < b.index) = [] → mergeGroup heading_template t g = t) ∧
    (∀ a p, g.find? (fun b => b.index = 0) = some a →
      g.filter (fun b => 0 < b.index) ≠ [] →
      Py.strip a.markdown_text ≠ [] →
      firstOccurAt t (Py.strip a.markdown_text) p →
      mergeGroup heading_template t g =
        t.take (p + (Py.strip a.markdown_text).length) ++ pys "\n\n" ++
          joinParagraphs ((g.filter (fun b => 0 < b.index)).map (format_block heading_template)) ++
          t.drop (p + (Py.strip a.markdown_text).length)) ∧
    (g.filter (fun b => 0 < b.index) ≠ [] →
      (g.find? (fun b => b.index = 0) = none ∨
        ∃ a, g.find? (fun b => b.index = 0) = some a ∧
          (Py.strip a.markdown_text = [] ∨
            ∀ q, (Py.strip a.markdown_text).isPrefixOf (t.drop q) = false)) →
      mergeGroup heading_template t g =
        (if t = [] then
          joinParagraphs ((g.filter (fun b => 0 < b.index)).map (format_block heading_template))
         else Py.rstrip t ++ pys "\n\n" ++
          joinParagraphs ((g.filter (fun b => 0 < b.index)).map (format_block heading_template)))) := by
  refine ⟨fun _ _ => rfl, ?_, ?_, ?_⟩
  · intro h
    simp only [mergeGroup]
    rw [if_pos h]
  · intro a p hanchor hextras hstrip hocc
    simp only [mergeGroup]
    rw [hanchor, if_neg hextras]
    dsimp only
    rw [if_pos hstrip, (findSub_eq_some_iff _ _ _).mpr hocc]
  · intro hextras hcase
    simp only [mergeGroup]
    rw [if_neg hextras]
    rcases hcase with hnone | ⟨a, hsome, hfail⟩
    · rw [hnone]
      dsimp only
      by_cases ht : t = []
      · rw [if_pos ht, if_neg (by rw [ht]; exact fun hcon => hcon rfl)]
      · rw [if_neg ht, if_pos ht]
    · rw [hsome]
      dsimp only
      rcases hfail with hempty | hnowhere
      · rw [if_neg (by rw [hempty]; exact fun hcon => hcon rfl)]
        by_cases ht : t = []
        · rw [if_pos ht, if_neg (by rw [ht]; exact fun hcon => hcon rfl)]
        · rw [if_neg ht, if_pos ht]
      · by_cases hempty : Py.strip a.markdown_text = []
        · rw [if_neg (by rw [hempty]; exact fun hcon => hcon rfl)]
          by_cases ht : t = []
          · rw [if_pos ht, if_neg (by rw [ht]; exact fun hcon => hcon rfl)]
          · rw [if_neg ht, if_pos ht]
        · rw [if_pos hempty, (findSub_eq_none_iff _ _).mpr hnowhere]
          dsimp only
          by_cases ht : t = []
          · rw [if_pos ht, if_neg (by rw [ht]; exact fun hcon => hcon rfl)]
          · rw [if_neg ht, if_pos ht]

instance (t pat : PyStr) (p : Nat) : Decidable (firstOccurAt t pat p) := by
  unfold firstOccurAt; infer_instance

/-- Anchor block of the C3 witness scenario. -/
def mergeWitnessAnchor : TabMarkdownBlock :=
  ⟨pys "Install", pys "pip", pys "pip install x", 0, 0, []⟩

/-- Extra block of the C3 witness scenario. -/
def mergeWitnessExtra : TabMarkdownBlock :=
  ⟨pys "Install", pys "uv", pys "uv add x", 1, 0, []⟩

/-- Base document of the C3 witness scenario. -/
def mergeWitnessDoc : PyStr := pys "Intro\n\npip install x\n\nOutro"

/-- Witness for C3: the anchor text occurs first at position 7 and the extra
block is inserted right after it. -/
theorem merge_into_markdown_spec_witness :
    mergeGroup (pys "#### [Tab: {group} - {label}]") mergeWitnessDoc
        [mergeWitnessAnchor, mergeWitnessExtra] =
      mergeWitnessDoc.take (7 + (Py.strip mergeWitnessAnchor.markdown_text).length) ++
        pys "\n\n" ++
        joinParagraphs (([mergeWitnessAnchor, mergeWitnessExtra].filter
          (fun b => 0 < b.index)).map (format_block (pys "#### [Tab: {group} - {label}]"))) ++
        mergeWitnessDoc.drop (7 + (Py.strip mergeWitnessAnchor.markdown_text).length) :=
  (merge_into_markdown_spec (pys "#### [Tab: {group} - {label}]") mergeWitnessDoc
    [mergeWitnessAnchor, mergeWitnessExtra]).2.2.1 mergeWitnessAnchor 7
    (by decide) (by decide) (by decide) (by decide)

/-! ## Lemmas towards C9 (idempotence of `normalize_url`) -/

namespace Py

lemma charToNat_le {y z : Char} (h : y ≤ z) : y.toNat ≤ z.toNat := by
  rw [Char.le_def] at h
  exact UInt32.le_def.mp h

lemma lowerChar_toNat (y : Char) (h : 'A' ≤ y ∧ y ≤ 'Z') :
    (lowerChar y).toNat = y.toNat + 32 := by
  unfold lowerChar
  rw [if_pos h]
  have hz : y.toNat ≤ 90 := charToNat_le h.2
  unfold Char.ofNat
  rw [dif_pos (Or.inl (by omega : y.toNat + 32 < 55296))]
  rfl

lemma lowerChar_range (y : Char) (h : 'A' ≤ y ∧ y ≤ 'Z') :
    97 ≤ (lowerChar y).toNat ∧ (lowerChar y).toNat ≤ 122 := by
  rw [lowerChar_toNat y h]
  have h1 : 65 ≤ y.toNat := charToNat_le h.1
  have h2 : y.toNat ≤ 90 := charToNat_le h.2
  omega

lemma lowerChar_eq_self (c : Char) (hc : ¬ ('A' ≤ c ∧ c ≤ 'Z')) : lowerChar c = c := by
  unfold lowerChar
  rw [if_neg hc]

lemma lowerChar_preimage (x : Char) (hx : x.toNat < 97) (y : Char) (h : lowerChar y = x) :
    y = x := by
  by_cases hy : 'A' ≤ y ∧ y ≤ 'Z'
  · exfalso
    have := lowerChar_range y hy
    rw [h] at this
    omega
  · rw [lowerChar_eq_self y hy] at h
    exact h

lemma lowerChar_idem (c : Char) : lowerChar (lowerChar c) = lowerChar c := by
  by_cases h : 'A' ≤ c ∧ c ≤ 'Z'
  · apply lowerChar_eq_self
    intro hcon
    have h97 := (lowerChar_range c h).1
    have hle := charToNat_le hcon.2
    have hz : ('Z').toNat = 90 := by decide
    omega
  · rw [lowerChar_eq_self c h, lowerChar_eq_self c h]

lemma lower_lower (l : PyStr) : lower (lower l) = lower l := by
  unfold lower
  rw [List.map_map]
  exact List.map_congr_left fun c _ => lowerChar_idem c

lemma lower_eq_nil_iff (l : PyStr) : lower l = [] ↔ l = [] := by
  unfold lower
  exact List.map_eq_nil_iff

lemma mem_lower_iff (c : Char) (hx : c.toNat < 97) (hfix : lowerChar c = c) (l : PyStr) :
    c ∈ lower l ↔ c ∈ l := by
  unfold lower
  constructor
  · intro h
    obtain ⟨y, hy, hly⟩ := List.mem_map.mp h
    exact (lowerChar_preimage c hx y hly) ▸ hy
  · intro h
    exact List.mem_map.mpr ⟨c, h, hfix⟩

lemma splitFirst_of_not_mem (c : Char) (l : PyStr) (h : c ∉ l) :
    splitFirst c l = (l, none) := by
  induction l with
  | nil => rfl
  | cons x xs ih =>
    have hx : ¬ x = c := fun hx => h (by rw [← hx]; exact List.mem_cons_self x xs)
    simp only [splitFirst, if_neg hx, ih (fun hm => h (List.mem_cons_of_mem x hm))]

lemma splitFirst_append (c : Char) (l rest : PyStr) (h : c ∉ l) :
    splitFirst c (l ++ c :: rest) = (l, some rest) := by
  induction l with
  | nil =>
    simp [splitFirst]
  | cons x xs ih =>
    have hx : ¬ x = c := fun hx => h (by rw [← hx]; exact List.mem_cons_self x xs)
    rw [List.cons_append]
    simp only [splitFirst, if_neg hx, ih (fun hm => h (List.mem_cons_of_mem x hm))]

lemma splitFirst_fst_not_mem (c : Char) (l : PyStr) : c ∉ (splitFirst c l).1 := by
  induction l with
  | nil => simp [splitFirst]
  | cons x xs ih =>
    by_cases hx : x = c
    · simp only [splitFirst, if_pos hx]
      simp
    · simp only [splitFirst, if_neg hx]
      intro hmem
      rcases List.mem_cons.mp hmem with rfl | hmem
      · exact hx rfl
      · exact ih hmem

lemma splitFirst_fst_subset (c : Char) (l : PyStr) : ∀ x ∈ (splitFirst c l).1, x ∈ l := by
  induction l with
  | nil => simp [splitFirst]
  | cons y ys ih =>
    by_cases hy : y = c
    · simp only [splitFirst, if_pos hy]; simp
    · simp only [splitFirst, if_neg hy]
      intro x hx
      rcases List.mem_cons.mp hx with rfl | hx
      · exact List.mem_cons_self _ _
      · exact List.mem_cons_of_mem _ (ih x hx)

lemma splitFirst_snd_subset (c : Char) (l : PyStr) :
    ∀ a, (splitFirst c l).2 = some a → ∀ x ∈ a, x ∈ l := by
  induction l with
  | nil => simp [splitFirst]
  | cons y ys ih =>
    by_cases hy : y = c
    · simp only [splitFirst, if_pos hy]
      rintro a ⟨rfl⟩ x hx
      exact List.mem_cons_of_mem _ hx
    · simp only [splitFirst, if_neg hy]
      intro a ha x hx
      exact List.mem_cons_of_mem _ (ih a ha x hx)

end Py

namespace Py

lemma splitSlash_ne_nil (l : PyStr) : splitSlash l ≠ [] := by
  cases l with
  | nil => simp [splitSlash]
  | cons c rest =>
    unfold splitSlash
    cases h : splitSlash rest with
    | nil => simp
    | cons s ss => by_cases hc : c = '/' <;> simp [hc]

lemma splitSlash_cons_slash (l : PyStr) : splitSlash ('/' :: l) = [] :: splitSlash l := by
  cases h : splitSlash l with
  | nil => exact absurd h (splitSlash_ne_nil l)
  | cons s ss =>
    conv_lhs => rw [splitSlash, h]
    simp

lemma splitSlash_cons_ne (c : Char) (hc : c ≠ '/') (l : PyStr) :
    splitSlash (c :: l) = (c :: (splitSlash l).headI) :: (splitSlash l).tail := by
  cases h : splitSlash l with
  | nil => exact absurd h (splitSlash_ne_nil l)
  | cons s ss =>
    conv_lhs => rw [splitSlash, h]
    simp [hc, h]

lemma splitSlash_no_slash (l : PyStr) (h : '/' ∉ l) : splitSlash l = [l] := by
  induction l with
  | nil => rfl
  | cons c rest ih =>
    have hc : c ≠ '/' := fun hcc => h (by rw [← hcc]; exact List.mem_cons_self _ _)
    rw [splitSlash_cons_ne c hc, ih (fun hm => h (List.mem_cons_of_mem _ hm))]
    rfl

lemma splitSlash_append_no_slash (s y : PyStr) (h : '/' ∉ s) :
    splitSlash (s ++ '/' :: y) = s :: splitSlash y := by
  induction s with
  | nil => rw [List.nil_append, splitSlash_cons_slash]
  | cons c cs ih =>
    have hc : c ≠ '/' := fun hcc => h (by rw [← hcc]; exact List.mem_cons_self _ _)
    rw [List.cons_append, splitSlash_cons_ne c hc,
      ih (fun hm => h (List.mem_cons_of_mem _ hm))]
    rfl

lemma splitSlash_join (segs : List PyStr) (h : ∀ s ∈ segs, '/' ∉ s) (hne : segs ≠ []) :
    splitSlash (joinSlash segs) = segs := by
  induction segs with
  | nil => exact absurd rfl hne
  | cons s rest ih =>
    cases rest with
    | nil =>
      show splitSlash (joinSlash [s]) = [s]
      exact splitSlash_no_slash s (h s (List.mem_cons_self _ _))
    | cons t ts =>
      show splitSlash (s ++ '/' :: joinSlash (t :: ts)) = s :: t :: ts
      rw [splitSlash_append_no_slash s _ (h s (List.mem_cons_self _ _)),
        ih (fun x hx => h x (List.mem_cons_of_mem _ hx)) (by simp)]

lemma splitSlash_append_slash (l : PyStr) : splitSlash (l ++ ['/']) = splitSlash l ++ [[]] := by
  induction l with
  | nil =>
    rw [List.nil_append, splitSlash_cons_slash]
    rfl
  | cons c cs ih =>
    by_cases hc : c = '/'
    · subst hc
      rw [List.cons_append, splitSlash_cons_slash, splitSlash_cons_slash, ih]
      rfl
    · rw [List.cons_append, splitSlash_cons_ne c hc, splitSlash_cons_ne c hc, ih]
      cases h : splitSlash cs with
      | nil => exact absurd h (splitSlash_ne_nil cs)
      | cons s ss => simp

lemma splitSlash_mem_no_slash (l : PyStr) : ∀ s ∈ splitSlash l, '/' ∉ s := by
  induction l with
  | nil =>
    intro s hs
    simp only [splitSlash, List.mem_singleton] at hs
    simp [hs]
  | cons c rest ih =>
    by_cases hc : c = '/'
    · subst hc
      rw [splitSlash_cons_slash]
      intro s hs
      rcases List.mem_cons.mp hs with rfl | hs
      · simp
      · exact ih s hs
    · rw [splitSlash_cons_ne c hc]
      intro s hs
      rcases List.mem_cons.mp hs with rfl | hs
      · intro hmem
        rcases List.mem_cons.mp hmem with hh | hh
        · exact hc hh.symm
        · cases hh2 : splitSlash rest with
          | nil => exact absurd hh2 (splitSlash_ne_nil rest)
          | cons s ss =>
            rw [hh2] at hh
            exact ih s (by rw [hh2]; exact List.mem_cons_self _ _) (by simpa using hh)
      · cases hh2 : splitSlash rest with
        | nil => exact absurd hh2 (splitSlash_ne_nil rest)
        | cons t ts =>
          rw [hh2] at hs
          exact ih s (by rw [hh2]; exact List.mem_cons_of_mem _ hs)

lemma splitSlash_mem_subset (l : PyStr) : ∀ s ∈ splitSlash l, ∀ x ∈ s, x ∈ l := by
  induction l with
  | nil =>
    intro s hs x hx
    simp only [splitSlash, List.mem_singleton] at hs
    subst hs
    cases hx
  | cons c rest ih =>
    by_cases hc : c = '/'
    · subst hc
      rw [splitSlash_cons_slash]
      intro s hs x hx
      rcases List.mem_cons.mp hs with rfl | hs
      · cases hx
      · exact List.mem_cons_of_mem _ (ih s hs x hx)
    · rw [splitSlash_cons_ne c hc]
      intro s hs x hx
      cases hh2 : splitSlash rest with
      | nil => exact absurd hh2 (splitSlash_ne_nil rest)
      | cons t ts =>
        rw [hh2] at hs
        rcases List.mem_cons.mp hs with rfl | hs
        · rcases List.mem_cons.mp hx with rfl | hx
          · exact List.mem_cons_self _ _
          · refine List.mem_cons_of_mem _ (ih t (by rw [hh2]; exact List.mem_cons_self _ _) x ?_)
            simpa using hx
        · exact List.mem_cons_of_mem _ (ih s (by rw [hh2]; exact List.mem_cons_of_mem _ hs) x hx)

lemma joinSlash_mem (parts : List PyStr) :
    ∀ x ∈ joinSlash parts, (∃ s ∈ parts, x ∈ s) ∨ x = '/' := by
  induction parts with
  | nil => intro x hx; cases hx
  | cons s rest ih =>
    cases rest with
    | nil =>
      intro x hx
      exact Or.inl ⟨s, List.mem_cons_self _ _, hx⟩
    | cons t ts =>
      show ∀ x ∈ s ++ '/' :: joinSlash (t :: ts), _
      intro x hx
      rcases List.mem_append.mp hx with hx | hx
      · exact Or.inl ⟨s, List.mem_cons_self _ _, hx⟩
      · rcases List.mem_cons.mp hx with rfl | hx
        · exact Or.inr rfl
        · rcases ih x hx with ⟨u, hu, hxu⟩ | h
          · exact Or.inl ⟨u, List.mem_cons_of_mem _ hu, hxu⟩
          · exact Or.inr h

end Py

/-- A path segment as produced by an absolute-path `normpath` run: non-empty
and not a dot segment, containing no slash. -/
def goodSeg (s : PyStr) : Prop :=
  s ≠ [] ∧ s ≠ pys "." ∧ s ≠ pys ".." ∧ '/' ∉ s

/-- Skipping the empty components contributed by leading slashes. -/
lemma foldl_normpathStep_replicate (k n : Nat) (acc : List PyStr) :
    List.foldl (normpathStep k) acc (List.replicate n []) = acc := by
  induction n generalizing acc with
  | zero => rfl
  | succ m ih =>
    rw [List.replicate_succ, List.foldl_cons]
    rw [show normpathStep k acc [] = acc by unfold normpathStep; rw [if_pos (Or.inl rfl)]]
    exact ih acc

/-- Feeding already-normal segments through the component loop just stacks
them. -/
lemma foldl_normpathStep_run (k : Nat) :
    ∀ (segs : List PyStr) (acc : List PyStr),
      (∀ s ∈ segs, s ≠ [] ∧ s ≠ pys "." ∧ s ≠ pys "..") →
      List.foldl (normpathStep k) acc segs = segs.reverse ++ acc := by
  intro segs
  induction segs with
  | nil => intro acc _; simp
  | cons s rest ih =>
    intro acc h
    obtain ⟨h1, h2, h3⟩ := h s (List.mem_cons_self _ _)
    rw [List.foldl_cons]
    rw [show normpathStep k acc s = s :: acc by
      unfold normpathStep
      rw [if_neg (by simp [h1, h2]), if_pos (Or.inl h3)]]
    rw [ih (s :: acc) (fun x hx => h x (List.mem_cons_of_mem _ hx))]
    simp

/-- Invariant of the component loop: with a nonzero slash count, every
element of the resulting stack satisfies the component predicate and is a
non-dot, non-empty segment. -/
lemma foldl_normpathStep_all (k : Nat) (hk : k ≠ 0) (P : PyStr → Prop) :
    ∀ (comps : List PyStr) (acc : List PyStr),
      (∀ s ∈ comps, P s) →
      (∀ s ∈ acc, P s ∧ s ≠ [] ∧ s ≠ pys "." ∧ s ≠ pys "..") →
      ∀ s ∈ List.foldl (normpathStep k) acc comps,
        P s ∧ s ≠ [] ∧ s ≠ pys "." ∧ s ≠ pys ".." := by
  intro comps
  induction comps with
  | nil => intro acc _ hacc; exact hacc
  | cons c cs ih =>
    intro acc hcomps hacc
    rw [List.foldl_cons]
    refine ih (normpathStep k acc c) (fun x hx => hcomps x (List.mem_cons_of_mem _ hx)) ?_
    unfold normpathStep
    by_cases hskip : c = [] ∨ c = pys "."
    · rw [if_pos hskip]; exact hacc
    · rw [if_neg hskip]
      push_neg at hskip
      by_cases hpush : c ≠ pys ".." ∨ (k = 0 ∧ acc = []) ∨ acc.head? = some (pys "..")
      · rw [if_pos hpush]
        have hcdd : c ≠ pys ".." := by
          rcases hpush with h | ⟨hk0, _⟩ | hhd
          · exact h
          · exact absurd hk0 hk
          · exfalso
            cases acc with
            | nil => cases hhd
            | cons a as =>
              have := hacc a (List.mem_cons_self _ _)
              exact this.2.2.2 (by simpa using hhd)
        intro s hs
        rcases List.mem_cons.mp hs with rfl | hs
        · exact ⟨hcomps s (List.mem_cons_self _ _), hskip.1, hskip.2, hcdd⟩
        · exact hacc s hs
      · rw [if_neg hpush]
        cases acc with
        | nil => intro s hs; cases hs
        | cons a as => exact fun s hs => hacc s (List.mem_cons_of_mem _ hs)

/-- Shape of `normpath` on a path that starts with a slash: one or two
leading slashes followed by slash-joined normal segments whose characters all
come from the input. -/
lemma pyNormpath_shape (p : PyStr) (hp : p.take 1 = ['/']) :
    ∃ k segs, (k = 1 ∨ k = 2) ∧ (∀ s ∈ segs, goodSeg s) ∧
      (∀ s ∈ segs, ∀ x ∈ s, x ∈ p) ∧
      pyNormpath p = List.replicate k '/' ++ Py.joinSlash segs := by
  have hpne : p ≠ [] := by intro h; rw [h] at hp; cases hp
  set k := if p.take 2 = ['/', '/'] ∧ p.take 3 ≠ ['/', '/', '/'] then 2 else 1 with hkdef
  have hk12 : k = 1 ∨ k = 2 := by
    rw [hkdef]; by_cases h : p.take 2 = ['/', '/'] ∧ p.take 3 ≠ ['/', '/', '/'] <;> simp [h]
  have hkne : k ≠ 0 := by rcases hk12 with h | h <;> simp [h]
  have hall := foldl_normpathStep_all k hkne
    (fun s => '/' ∉ s ∧ ∀ x ∈ s, x ∈ p) (Py.splitSlash p) []
    (fun s hs => ⟨Py.splitSlash_mem_no_slash p s hs, Py.splitSlash_mem_subset p s hs⟩)
    (by intro s hs; cases hs)
  refine ⟨k, (List.foldl (normpathStep k) [] (Py.splitSlash p)).reverse, hk12, ?_, ?_, ?_⟩
  · intro s hs
    rw [List.mem_reverse] at hs
    have := hall s hs
    exact ⟨this.2.1, this.2.2.1, this.2.2.2, this.1.1⟩
  · intro s hs
    rw [List.mem_reverse] at hs
    exact (hall s hs).1.2
  · unfold pyNormpath
    rw [if_neg hpne, if_pos hp, ← hkdef]
    have hrep : List.replicate k '/' ≠ [] := by
      rcases hk12 with h | h <;> simp [h]
    rw [if_neg (by simp [hrep])]


/-- Closed-form evaluation of `normpath` on a slash-headed path. -/
lemma pyNormpath_eval (p : PyStr) (hp : p.take 1 = ['/']) :
    pyNormpath p =
      List.replicate (if p.take 2 = ['/', '/'] ∧ p.take 3 ≠ ['/', '/', '/'] then 2 else 1) '/' ++
      Py.joinSlash ((List.foldl
        (normpathStep (if p.take 2 = ['/', '/'] ∧ p.take 3 ≠ ['/', '/', '/'] then 2 else 1)) []
        (Py.splitSlash p)).reverse) := by
  have hpne : p ≠ [] := fun h => by rw [h] at hp; cases hp
  unfold pyNormpath
  rw [if_neg hpne, if_pos hp]
  dsimp only
  rw [if_neg ?hne]
  case hne =>
    by_cases h : p.take 2 = ['/', '/'] ∧ p.take 3 ≠ ['/', '/', '/'] <;> simp [h]

/-- `normpath` is the identity on an already-normal absolute path, with or
without a trailing slash (the latter only when there is at least one
segment, since the slash-only paths already end in a slash). -/
lemma pyNormpath_core (k : Nat) (hk : k = 1 ∨ k = 2) (segs : List PyStr)
    (hg : ∀ s ∈ segs, goodSeg s) (tr : Bool) (htr : tr = true → segs ≠ []) :
    pyNormpath ((List.replicate k '/' ++ Py.joinSlash segs) ++ (if tr then ['/'] else [])) =
      List.replicate k '/' ++ Py.joinSlash segs := by
  cases segs with
  | nil =>
    have htr0 : tr = false := by
      cases tr with
      | false => rfl
      | true => exact absurd (htr rfl) (fun h => h rfl)
    subst htr0
    rcases hk with rfl | rfl <;> decide
  | cons s rest =>
    obtain ⟨hs1, _, _, hs4⟩ := hg s (List.mem_cons_self _ _)
    obtain ⟨c, cs, rfl⟩ : ∃ c cs, s = c :: cs := by
      cases s with
      | nil => exact absurd rfl hs1
      | cons c cs => exact ⟨c, cs, rfl⟩
    have hcslash : c ≠ '/' := fun h => hs4 (by rw [← h]; exact List.mem_cons_self _ _)
    have hjoin : ∃ tail, Py.joinSlash ((c :: cs) :: rest) = c :: tail := by
      cases rest with
      | nil => exact ⟨cs, rfl⟩
      | cons t ts => exact ⟨cs ++ '/' :: Py.joinSlash (t :: ts), rfl⟩
    obtain ⟨tail, hjoin⟩ := hjoin
    have hsplitJ : Py.splitSlash (Py.joinSlash ((c :: cs) :: rest) ++ (if tr then ['/'] else [])) =
        ((c :: cs) :: rest) ++ (if tr then [[]] else []) := by
      have hbase : Py.splitSlash (Py.joinSlash ((c :: cs) :: rest)) = (c :: cs) :: rest :=
        Py.splitSlash_join _ (fun x hx => (hg x hx).2.2.2) (by simp)
      cases tr with
      | false => simpa using hbase
      | true =>
        rw [if_pos rfl, Py.splitSlash_append_slash, hbase]
        simp
    have hrun : ∀ kk : Nat, List.foldl (normpathStep kk) []
        (((c :: cs) :: rest) ++ (if tr then [[]] else [])) = ((c :: cs) :: rest).reverse := by
      intro kk
      rw [List.foldl_append]
      rw [foldl_normpathStep_run kk _ []
        (fun x hx => ⟨(hg x hx).1, (hg x hx).2.1, (hg x hx).2.2.1⟩)]
      cases tr with
      | false => simp
      | true =>
        rw [if_pos rfl]
        simp only [List.foldl_cons, List.foldl_nil]
        rw [show normpathStep kk (((c :: cs) :: rest).reverse ++ []) [] =
          ((c :: cs) :: rest).reverse ++ [] by unfold normpathStep; rw [if_pos (Or.inl rfl)]]
        simp
    rcases hk with rfl | rfl
    · have hform : (List.replicate 1 '/' ++ Py.joinSlash ((c :: cs) :: rest)) ++
          (if tr then ['/'] else []) =
          '/' :: (Py.joinSlash ((c :: cs) :: rest) ++ (if tr then ['/'] else [])) := by
        simp [List.replicate]
      rw [hform]
      rw [pyNormpath_eval _ (by simp)]
      have hcond : ¬ (('/' :: (Py.joinSlash ((c :: cs) :: rest) ++
          (if tr then ['/'] else []))).take 2 = ['/', '/'] ∧
          ('/' :: (Py.joinSlash ((c :: cs) :: rest) ++
          (if tr then ['/'] else []))).take 3 ≠ ['/', '/', '/']) := by
        intro hcon
        rw [hjoin] at hcon
        have := hcon.1
        simp at this
        exact hcslash this
      rw [if_neg hcond]
      rw [Py.splitSlash_cons_slash, hsplitJ]
      rw [List.foldl_cons]
      rw [show normpathStep 1 [] [] = [] by unfold normpathStep; rw [if_pos (Or.inl rfl)]]
      rw [hrun 1, List.reverse_reverse]
    · have hform : (List.replicate 2 '/' ++ Py.joinSlash ((c :: cs) :: rest)) ++
          (if tr then ['/'] else []) =
          '/' :: '/' :: (Py.joinSlash ((c :: cs) :: rest) ++ (if tr then ['/'] else [])) := by
        simp [List.replicate]
      rw [hform]
      rw [pyNormpath_eval _ (by simp)]
      have hcond : ('/' :: '/' :: (Py.joinSlash ((c :: cs) :: rest) ++
          (if tr then ['/'] else []))).take 2 = ['/', '/'] ∧
          ('/' :: '/' :: (Py.joinSlash ((c :: cs) :: rest) ++
          (if tr then ['/'] else []))).take 3 ≠ ['/', '/', '/'] := by
        constructor
        · rfl
        · rw [hjoin]
          intro hcon
          simp at hcon
          exact hcslash hcon
      rw [if_pos hcond]
      rw [Py.splitSlash_cons_slash, Py.splitSlash_cons_slash, hsplitJ]
      rw [List.foldl_cons, List.foldl_cons]
      simp only [show normpathStep 2 [] [] = [] by unfold normpathStep; rw [if_pos (Or.inl rfl)]]
      rw [hrun 2, List.reverse_reverse]

/-- Shape of `_normalized_path`: either the root `/`, or one-or-two leading
slashes, normal segments drawn from the input's characters, and possibly a
re-added trailing slash. -/
lemma normalized_path_shape (p0 : PyStr) :
    normalized_path p0 = pys "/" ∨
    ∃ k segs tr, (k = 1 ∨ k = 2) ∧ (∀ s ∈ segs, goodSeg s) ∧
      (∀ s ∈ segs, ∀ x ∈ s, x ∈ p0 ∨ x = '/') ∧
      (tr = true → segs ≠ []) ∧
      (tr = true → (List.replicate k '/' ++ Py.joinSlash segs).getLast? ≠ some '/') ∧
      normalized_path p0 =
        (List.replicate k '/' ++ Py.joinSlash segs) ++ (if tr then ['/'] else []) := by
  by_cases hne : p0 = []
  · left
    rw [hne]
    rfl
  · right
    set p1 := if p0.take 1 ≠ ['/'] then '/' :: p0 else p0 with hp1def
    have hp1take : p1.take 1 = ['/'] := by
      rw [hp1def]
      by_cases h : p0.take 1 ≠ ['/']
      · rw [if_pos h]; rfl
      · rw [if_neg h]; push_neg at h; exact h
    have hp1mem : ∀ x ∈ p1, x ∈ p0 ∨ x = '/' := by
      intro x hx
      rw [hp1def] at hx
      by_cases h : p0.take 1 ≠ ['/']
      · rw [if_pos h] at hx
        rcases List.mem_cons.mp hx with rfl | hx
        · exact Or.inr rfl
        · exact Or.inl hx
      · rw [if_neg h] at hx
        exact Or.inl hx
    obtain ⟨k, segs, hk, hg, hsub, hnp⟩ := pyNormpath_shape p1 hp1take
    have hval : normalized_path p0 =
        (let n1 := pyNormpath p1
         let n2 := if p1.getLast? = some '/' ∧ n1.getLast? ≠ some '/' then n1 ++ ['/'] else n1
         let n3 := if n2.take 1 ≠ ['/'] then '/' :: n2 else n2
         if n3 = [] then pys "/" else n3) := by
      unfold normalized_path
      rw [if_neg hne]
    rw [hval]
    dsimp only
    rw [hnp]
    have hBtake : (List.replicate k '/' ++ Py.joinSlash segs).take 1 = ['/'] := by
      rcases hk with rfl | rfl <;> rfl
    by_cases hc : p1.getLast? = some '/' ∧
        (List.replicate k '/' ++ Py.joinSlash segs).getLast? ≠ some '/'
    · refine ⟨k, segs, true, hk, hg, fun s hs x hx => hp1mem x (hsub s hs x hx), ?_, fun _ => hc.2, ?_⟩
      · intro _ hsegs
        apply hc.2
        rw [hsegs]
        rcases hk with rfl | rfl <;> rfl
      · rw [if_pos hc]
        have htk : ((List.replicate k '/' ++ Py.joinSlash segs) ++ ['/']).take 1 = ['/'] := by
          rcases hk with rfl | rfl <;> rfl
        have h3 : ¬(((List.replicate k '/' ++ Py.joinSlash segs) ++ ['/']).take 1 ≠ ['/']) :=
          fun hno => hno htk
        rw [if_neg h3]
        have h4 : (List.replicate k '/' ++ Py.joinSlash segs) ++ ['/'] ≠ [] := by simp
        rw [if_neg h4]
        simp
    · refine ⟨k, segs, false, hk, hg, fun s hs x hx => hp1mem x (hsub s hs x hx),
        by simp, by simp, ?_⟩
      rw [if_neg hc]
      have h3 : ¬((List.replicate k '/' ++ Py.joinSlash segs).take 1 ≠ ['/']) :=
        fun hno => hno hBtake
      rw [if_neg h3]
      have hBne : List.replicate k '/' ++ Py.joinSlash segs ≠ [] := by
        rcases hk with rfl | rfl <;> simp
      rw [if_neg hBne]
      simp

/-- `_normalized_path` always yields a slash-headed path. -/
lemma normalized_path_take1 (p0 : PyStr) : (normalized_path p0).take 1 = ['/'] := by
  rcases normalized_path_shape p0 with h | ⟨k, segs, tr, hk, _, _, _, _, h⟩
  · rw [h]; rfl
  · rw [h]
    rcases hk with rfl | rfl <;> rfl

/-- Characters of `_normalized_path` all come from the input or are `/`. -/
lemma normalized_path_subset (p0 : PyStr) :
    ∀ x ∈ normalized_path p0, x ∈ p0 ∨ x = '/' := by
  rcases normalized_path_shape p0 with h | ⟨k, segs, tr, hk, hg, hsub, _, _, h⟩
  · rw [h]
    intro x hx
    rcases List.mem_singleton.mp hx with rfl
    exact Or.inr rfl
  · rw [h]
    intro x hx
    rcases List.mem_append.mp hx with hx | hx
    · rcases List.mem_append.mp hx with hx | hx
      · exact Or.inr (List.eq_of_mem_replicate hx)
      · rcases Py.joinSlash_mem segs x hx with ⟨s, hs, hxs⟩ | hxr
        · exact hsub s hs x hxs
        · exact Or.inr hxr
    · cases tr with
      | false => cases hx
      | true =>
        rw [if_pos rfl] at hx
        rcases List.mem_singleton.mp hx with rfl
        exact Or.inr rfl

/-- C9 core: `_normalized_path` is idempotent. -/
lemma normalized_path_idem (p0 : PyStr) :
    normalized_path (normalized_path p0) = normalized_path p0 := by
  rcases normalized_path_shape p0 with h | ⟨k, segs, tr, hk, hg, _, htrseg, htrlast, h⟩
  · rw [h]
    decide
  · rw [h]
    set B := List.replicate k '/' ++ Py.joinSlash segs with hBdef
    have hBtake : B.take 1 = ['/'] := by
      rw [hBdef]; rcases hk with rfl | rfl <;> rfl
    have hBne : B ≠ [] := by
      rw [hBdef]; rcases hk with rfl | rfl <;> simp
    have hq_take : (B ++ (if tr then ['/'] else [])).take 1 = ['/'] := by
      rw [hBdef]; rcases hk with rfl | rfl <;> cases tr <;> rfl
    have hq_ne : B ++ (if tr then ['/'] else []) ≠ [] := by
      intro hcon
      exact hBne (List.append_eq_nil.mp hcon).1
    have hnorm : pyNormpath (B ++ (if tr then ['/'] else [])) = B :=
      pyNormpath_core k hk segs hg tr htrseg
    have hval : normalized_path (B ++ (if tr then ['/'] else [])) =
        (let n1 := pyNormpath (B ++ (if tr then ['/'] else []))
         let n2 := if (B ++ (if tr then ['/'] else [])).getLast? = some '/' ∧
             n1.getLast? ≠ some '/' then n1 ++ ['/'] else n1
         let n3 := if n2.take 1 ≠ ['/'] then '/' :: n2 else n2
         if n3 = [] then pys "/" else n3) := by
      unfold normalized_path
      rw [if_neg hq_ne]
      have hpre : ¬((B ++ (if tr then ['/'] else [])).take 1 ≠ ['/']) :=
        fun hno => hno hq_take
      rw [if_neg hpre]
    rw [hval]
    dsimp only
    rw [hnorm]
    cases tr with
    | false =>
      simp only [show (B ++ if false = true then ['/'] else []) = B from by simp]
      simp only [if_neg (fun hc : B.getLast? = some '/' ∧ B.getLast? ≠ some '/' => hc.2 hc.1)]
      have h3 : ¬(B.take 1 ≠ ['/']) := fun hno => hno hBtake
      rw [if_neg h3]
      rw [if_neg (by simpa using hBne)]
    | true =>
      have hlast : (B ++ ['/']).getLast? = some '/' := by
        rw [List.getLast?_concat]
      rw [if_pos rfl]
      have hcond : (B ++ ['/']).getLast? = some '/' ∧ B.getLast? ≠ some '/' :=
        ⟨hlast, htrlast rfl⟩
      rw [if_pos hcond]
      have htk : (B ++ ['/']).take 1 = ['/'] := by simpa using hq_take
      have h3 : ¬((B ++ ['/']).take 1 ≠ ['/']) := fun hno => hno htk
      rw [if_neg h3]
      have h4 : B ++ ['/'] ≠ [] := by simp
      rw [if_neg h4]

namespace Py

/-- A list whose first element is `a` (as a `take`) decomposes. -/
lemma take1_eq_singleton (l : PyStr) (a : Char) (h : l.take 1 = [a]) :
    ∃ t, l = a :: t := by
  cases l with
  | nil => cases h
  | cons x xs =>
    simp at h
    exact ⟨xs, by rw [h]⟩

end Py

/-- The netloc produced by `_splitnetloc` contains no delimiter. -/
lemma splitnetloc_fst (s : PyStr) :
    ∀ c ∈ (splitnetloc s).1, ¬(c = '/' ∨ c = '?' ∨ c = '#') := by
  induction s with
  | nil => intro c hc; cases hc
  | cons x xs ih =>
    by_cases hx : x = '/' ∨ x = '?' ∨ x = '#'
    · simp only [splitnetloc, if_pos hx]
      intro c hc; cases hc
    · simp only [splitnetloc, if_neg hx]
      intro c hc
      rcases List.mem_cons.mp hc with rfl | hc
      · exact hx
      · exact ih c hc

/-- `_splitnetloc` splits exactly at a delimiter-free prefix. -/
lemma splitnetloc_clean (n rest : PyStr)
    (hn : ∀ c ∈ n, ¬(c = '/' ∨ c = '?' ∨ c = '#'))
    (hr : rest.take 1 = ['/']) : splitnetloc (n ++ rest) = (n, rest) := by
  induction n with
  | nil =>
    obtain ⟨t, rfl⟩ := Py.take1_eq_singleton rest '/' hr
    simp [splitnetloc]
  | cons x xs ih =>
    have hx : ¬(x = '/' ∨ x = '?' ∨ x = '#') := hn x (List.mem_cons_self x xs)
    have hih := ih (fun c hc => hn c (List.mem_cons_of_mem x hc))
    simp [splitnetloc, hx, hih]

/-- Characters of the path half of `_splitparams` come from its input. -/
lemma splitparams_fst_subset (s : PyStr) : ∀ x ∈ (splitparams s).1, x ∈ s := by
  unfold splitparams
  by_cases hs : s.contains '/'
  · rw [if_pos hs]
    intro x hx
    try dsimp only at hx
    rcases hsp : Py.splitFirst ';' (splitAtLastSlash s).2 with ⟨before, after⟩
    rw [hsp] at hx
    cases after with
    | none => exact hx
    | some a =>
      rcases List.mem_append.mp hx with hx | hx
      · exact List.take_subset _ s hx
      · have h1 : x ∈ (splitAtLastSlash s).2 := by
          have h2 := Py.splitFirst_fst_subset ';' (splitAtLastSlash s).2
          rw [hsp] at h2
          exact h2 x hx
        have h2 : x ∈ s.reverse.takeWhile (· ≠ '/') := by
          unfold splitAtLastSlash at h1
          exact List.mem_reverse.mp h1
        exact List.mem_reverse.mp (List.takeWhile_subset _ h2)
  · rw [if_neg hs]
    intro x hx
    try dsimp only at hx
    rcases hsp : Py.splitFirst ';' s with ⟨before, after⟩
    rw [hsp] at hx
    cases after with
    | some a =>
      have h2 := Py.splitFirst_fst_subset ';' s
      rw [hsp] at h2
      exact h2 x hx
    | none => exact hx

/-- Structural facts about a successful `urlsplit`: the netloc is free of
path/query/fragment delimiters and bracket-balanced, the path holds no `#`
or `?`, and the query holds no `#`. -/
lemma pyUrlsplitWith_components (ds u : PyStr) (r : UrlSplitResult)
    (h : pyUrlsplitWith ds u = some r) :
    (∀ c ∈ r.netloc, ¬(c = '/' ∨ c = '?' ∨ c = '#')) ∧
    ¬((r.netloc.contains '[' ∧ ¬ r.netloc.contains ']') ∨
      (r.netloc.contains ']' ∧ ¬ r.netloc.contains '[')) ∧
    '#' ∉ r.path ∧ '?' ∉ r.path ∧ '#' ∉ r.query := by
  unfold pyUrlsplitWith at h
  dsimp only at h
  set rest1 := (urlsplitScheme u).2 with hrest1
  set nr := if rest1.take 2 = ['/', '/'] then splitnetloc (rest1.drop 2)
    else (([] : PyStr), rest1) with hnr
  by_cases hb : (nr.1.contains '[' ∧ ¬ nr.1.contains ']') ∨
      (nr.1.contains ']' ∧ ¬ nr.1.contains '[')
  · rw [if_pos hb] at h
    cases h
  · rw [if_neg hb] at h
    have hr := Option.some.inj h
    have hnet : ∀ c ∈ nr.1, ¬(c = '/' ∨ c = '?' ∨ c = '#') := by
      rw [hnr]
      by_cases h2 : rest1.take 2 = ['/', '/']
      · rw [if_pos h2]
        exact splitnetloc_fst _
      · rw [if_neg h2]
        intro c hc
        cases hc
    refine ⟨?_, ?_, ?_, ?_, ?_⟩
    · rw [← hr]
      exact hnet
    · rw [← hr]
      exact hb
    · rw [← hr]
      intro hc
      have h1 := Py.splitFirst_fst_subset '?' (Py.splitFirst '#' nr.2).1 _ hc
      exact Py.splitFirst_fst_not_mem '#' nr.2 h1
    · rw [← hr]
      exact Py.splitFirst_fst_not_mem '?' _
    · rw [← hr]
      show '#' ∉ (Py.splitFirst '?' (Py.splitFirst '#' nr.2).1).2.getD []
      rcases hq : (Py.splitFirst '?' (Py.splitFirst '#' nr.2).1).2 with _ | a
      · intro hc
        cases hc
      · intro hc
        have h1 := Py.splitFirst_snd_subset '?' (Py.splitFirst '#' nr.2).1 a hq '#' hc
        exact Py.splitFirst_fst_not_mem '#' nr.2 h1

/-- The same structural facts lifted through `urlparse`'s params split. -/
lemma pyUrlparse_components (u : PyStr) (p : UrlParseResult)
    (h : pyUrlparse u = some p) :
    (∀ c ∈ p.netloc, ¬(c = '/' ∨ c = '?' ∨ c = '#')) ∧
    ¬((p.netloc.contains '[' ∧ ¬ p.netloc.contains ']') ∨
      (p.netloc.contains ']' ∧ ¬ p.netloc.contains '[')) ∧
    '#' ∉ p.path ∧ '?' ∉ p.path ∧ '#' ∉ p.query := by
  unfold pyUrlparse pyUrlparseWith at h
  rcases Option.map_eq_some'.mp h with ⟨r, hr, hp⟩
  obtain ⟨hnet, hbal, hph, hpq, hqh⟩ := pyUrlsplitWith_components [] u r hr
  have hpath : ∀ x ∈ p.path, x ∈ r.path := by
    rw [← hp]
    dsimp only
    by_cases hc : uses_params.contains r.scheme ∧ r.path.contains ';'
    · rw [if_pos hc]
      exact splitparams_fst_subset r.path
    · rw [if_neg hc]
      intro x hx
      exact hx
  refine ⟨?_, ?_, ?_, ?_, ?_⟩
  · rw [← hp]
    exact hnet
  · rw [← hp]
    exact hbal
  · intro hc
    exact hph (hpath '#' hc)
  · intro hc
    exact hpq (hpath '?' hc)
  · rw [← hp]
    exact hqh

/-- Lower-casing a netloc preserves freedom from URL delimiters. -/
lemma lower_no_delims (n : PyStr) (hn : ∀ c ∈ n, ¬(c = '/' ∨ c = '?' ∨ c = '#')) :
    ∀ c ∈ Py.lower n, ¬(c = '/' ∨ c = '?' ∨ c = '#') := by
  intro c hc
  rcases List.mem_map.mp hc with ⟨y, hy, hyc⟩
  intro hdel
  rcases hdel with rfl | rfl | rfl
  · exact hn y hy (Or.inl (Py.lowerChar_preimage '/' (by decide) y hyc))
  · exact hn y hy (Or.inr (Or.inl (Py.lowerChar_preimage '?' (by decide) y hyc)))
  · exact hn y hy (Or.inr (Or.inr (Py.lowerChar_preimage '#' (by decide) y hyc)))

/-- Lower-casing a netloc preserves bracket balance. -/
lemma lower_balanced (n : PyStr)
    (h : ¬((n.contains '[' ∧ ¬ n.contains ']') ∨ (n.contains ']' ∧ ¬ n.contains '['))) :
    ¬(((Py.lower n).contains '[' ∧ ¬ (Py.lower n).contains ']') ∨
      ((Py.lower n).contains ']' ∧ ¬ (Py.lower n).contains '[')) := by
  have h1 : '[' ∈ Py.lower n ↔ '[' ∈ n := Py.mem_lower_iff '[' (by decide) (by decide) n
  have h2 : ']' ∈ Py.lower n ↔ ']' ∈ n := Py.mem_lower_iff ']' (by decide) (by decide) n
  intro hcon
  apply h
  rcases hcon with ⟨ha, hb⟩ | ⟨ha, hb⟩
  · refine Or.inl ⟨by simpa using h1.mp (by simpa using ha), fun hc => hb ?_⟩
    simpa using h2.mpr (by simpa using hc)
  · refine Or.inr ⟨by simpa using h2.mp (by simpa using ha), fun hc => hb ?_⟩
    simpa using h1.mpr (by simpa using hc)

/-- `urlsplit` recovers the scheme, netloc, path and query from a URL
reassembled out of clean components. -/
lemma pyUrlsplit_recon (c : Char) (cs N P Q : PyStr)
    (hsch : (c.isAlpha && (c :: cs).all isSchemeChar) = true)
    (hcolon : ':' ∉ c :: cs)
    (hN : ∀ ch ∈ N, ¬(ch = '/' ∨ ch = '?' ∨ ch = '#'))
    (hNb : ¬((N.contains '[' ∧ ¬ N.contains ']') ∨
      (N.contains ']' ∧ ¬ N.contains '[')))
    (hP1 : P.take 1 = ['/']) (hPq : '?' ∉ P) (hPh : '#' ∉ P) (hQh : '#' ∉ Q) :
    pyUrlsplitWith [] ((c :: cs) ++ ':' :: '/' :: '/' ::
        (N ++ (P ++ (if Q = [] then [] else '?' :: Q)))) =
      some ⟨Py.lower (c :: cs), N, P, Q, []⟩ := by
  set rest := P ++ (if Q = [] then [] else '?' :: Q) with hrestdef
  have hrest1 : rest.take 1 = ['/'] := by
    obtain ⟨t, hP⟩ := Py.take1_eq_singleton P '/' hP1
    rw [hrestdef, hP]
    rfl
  have hresth : '#' ∉ rest := by
    rw [hrestdef]
    intro hc
    rcases List.mem_append.mp hc with hc | hc
    · exact hPh hc
    · by_cases hQ : Q = []
      · rw [if_pos hQ] at hc
        cases hc
      · rw [if_neg hQ] at hc
        rcases List.mem_cons.mp hc with hc | hc
        · cases hc
        · exact hQh hc
  have hscheme : urlsplitScheme ((c :: cs) ++ ':' :: '/' :: '/' :: (N ++ rest)) =
      (Py.lower (c :: cs), '/' :: '/' :: (N ++ rest)) := by
    unfold urlsplitScheme
    rw [Py.splitFirst_append ':' (c :: cs) _ hcolon]
    dsimp only
    rw [if_pos hsch]
  have hlne : Py.lower (c :: cs) ≠ [] := by
    intro hc
    cases hc
  unfold pyUrlsplitWith
  dsimp only
  rw [hscheme]
  dsimp only
  rw [if_neg hlne]
  rw [if_pos (show List.take 2 ('/' :: '/' :: (N ++ rest)) = ['/', '/'] from rfl)]
  rw [show List.drop 2 ('/' :: '/' :: (N ++ rest)) = N ++ rest from rfl]
  rw [splitnetloc_clean N rest hN hrest1]
  dsimp only
  rw [if_neg hNb]
  rw [Py.splitFirst_of_not_mem '#' rest hresth]
  dsimp only
  by_cases hQ : Q = []
  · subst hQ
    have hrestP : rest = P := by
      rw [hrestdef, if_pos rfl, List.append_nil]
    rw [hrestP, Py.splitFirst_of_not_mem '?' P hPq]
    rfl
  · have hrestP : rest = P ++ '?' :: Q := by
      rw [hrestdef, if_neg hQ]
    rw [hrestP, Py.splitFirst_append '?' P Q hPq]
    rfl

/-- C9 counterexample: `normalize_url` is not idempotent.  The params split
of `urlparse` strips `;b` from `http://h/a;b` on the second pass (the first
pass protects it behind a trailing `/.` that `normpath` removes), and a
multi-slash path collapses to an authority on re-parsing: `http:////x`
normalizes to `http://x`, which re-normalizes to `http://x/`. -/
theorem normalize_url_not_idempotent :
    normalize_url (pys "http://h/a;b/.") none = some (pys "http://h/a;b") ∧
    normalize_url (pys "http://h/a;b") none = some (pys "http://h/a") ∧
    normalize_url (pys "http:////x") none = some (pys "http://x") ∧
    normalize_url (pys "http://x") none = some (pys "http://x/") := by
  decide

/-- C9 (amended): `normalize_url` is idempotent on every URL whose parse
succeeds directly (absolute URL), whose path carries no `;` (so `urlparse`'s
params split cannot strip a segment suffix on re-parsing), and which does not
pair an empty netloc with a normalized path starting `//` (which would be
re-parsed as an authority): if `normalize_url u None` returns `r`, then
`normalize_url r None` returns `r` again. -/
theorem normalize_url_idempotent_on (u r : PyStr) (parsed : UrlParseResult)
    (hparse : pyUrlparse u = some parsed)
    (hsemi : ';' ∉ parsed.path)
    (hcase : ¬(parsed.netloc = [] ∧ (normalized_path parsed.path).take 2 = ['/', '/']))
    (hr : normalize_url u none = some r) :
    normalize_url r none = some r := by
  by_cases hu : u = []
  · rw [normalize_url, if_pos hu] at hr
    cases hr
  unfold normalize_url at hr
  rw [if_neg hu, hparse] at hr
  dsimp only at hr
  by_cases hsch : parsed.scheme = []
  · rw [if_pos hsch] at hr
    dsimp only at hr
    cases hr
  rw [if_neg hsch] at hr
  dsimp only at hr
  by_cases hhttp : Py.lower parsed.scheme = pys "http" ∨ Py.lower parsed.scheme = pys "https"
  swap
  · rw [if_neg hhttp] at hr
    cases hr
  rw [if_pos hhttp] at hr
  have hre := Option.some.inj hr
  obtain ⟨hnet0, hbal0, hph0, hpq0, hqh0⟩ := pyUrlparse_components u parsed hparse
  have hN := lower_no_delims parsed.netloc hnet0
  have hNb := lower_balanced parsed.netloc hbal0
  have hP1 := normalized_path_take1 parsed.path
  have hPq : '?' ∉ normalized_path parsed.path := by
    intro hc
    rcases normalized_path_subset parsed.path '?' hc with h | h
    · exact hpq0 h
    · exact absurd h (by decide)
  have hPh : '#' ∉ normalized_path parsed.path := by
    intro hc
    rcases normalized_path_subset parsed.path '#' hc with h | h
    · exact hph0 h
    · exact absurd h (by decide)
  have hPs : ';' ∉ normalized_path parsed.path := by
    intro hc
    rcases normalized_path_subset parsed.path ';' hc with h | h
    · exact hsemi h
    · exact absurd h (by decide)
  have hNP : ¬(Py.lower parsed.netloc = [] ∧
      (normalized_path parsed.path).take 2 = ['/', '/']) := by
    rintro ⟨h1, h2⟩
    exact hcase ⟨List.map_eq_nil.mp h1, h2⟩
  have hSshape : ∃ c cs, Py.lower parsed.scheme = c :: cs ∧
      (c.isAlpha && (c :: cs).all isSchemeChar) = true ∧ ':' ∉ (c :: cs) ∧
      uses_netloc.contains (Py.lower parsed.scheme) = true := by
    rcases hhttp with h | h <;> rw [h]
    · exact ⟨'h', pys "ttp", by decide, by decide, by decide, by decide⟩
    · exact ⟨'h', pys "ttps", by decide, by decide, by decide, by decide⟩
  obtain ⟨c, cs, hSc, hsch2, hcolon, huses⟩ := hSshape
  have hlcc : Py.lower (c :: cs) = c :: cs := by
    rw [← hSc, Py.lower_lower]
  have hS_ne : Py.lower parsed.scheme ≠ [] := by
    rw [hSc]
    intro hc
    cases hc
  have hC1 : Py.lower parsed.netloc ≠ [] ∨
      (Py.lower parsed.scheme ≠ [] ∧
        uses_netloc.contains (Py.lower parsed.scheme) = true ∧
        (normalized_path parsed.path).take 2 ≠ ['/', '/']) := by
    by_cases hN0 : Py.lower parsed.netloc = []
    · exact Or.inr ⟨hS_ne, huses, fun hc => hNP ⟨hN0, hc⟩⟩
    · exact Or.inl hN0
  have hWp : urlunparse (Py.lower parsed.scheme) (Py.lower parsed.netloc)
      (normalized_path parsed.path) [] parsed.query [] =
      urlunsplit (Py.lower parsed.scheme) (Py.lower parsed.netloc)
        (normalized_path parsed.path) parsed.query [] := by
    unfold urlunparse
    rw [if_neg (show ¬(([] : PyStr) ≠ []) from fun hc => hc rfl)]
  have hWeq : urlunsplit (Py.lower parsed.scheme) (Py.lower parsed.netloc)
      (normalized_path parsed.path) parsed.query [] =
      (c :: cs) ++ ':' :: '/' :: '/' ::
        (Py.lower parsed.netloc ++ (normalized_path parsed.path ++
          (if parsed.query = [] then [] else '?' :: parsed.query))) := by
    unfold urlunsplit
    dsimp only
    rw [if_pos hC1]
    rw [if_neg (show ¬(normalized_path parsed.path ≠ [] ∧
      (normalized_path parsed.path).take 1 ≠ ['/']) from fun hc => hc.2 hP1)]
    rw [if_pos hS_ne]
    rw [if_neg (show ¬(([] : PyStr) ≠ []) from fun hc => hc rfl)]
    by_cases hQ : parsed.query = []
    · rw [if_neg (show ¬(parsed.query ≠ []) from fun hc => hc hQ)]
      rw [if_pos hQ, List.append_nil, hSc]
    · rw [if_pos hQ, if_neg hQ, hSc]
      simp [List.append_assoc]
  have hparse_r : pyUrlparse r = some ⟨c :: cs, Py.lower parsed.netloc,
      normalized_path parsed.path, [], parsed.query, []⟩ := by
    rw [← hre, hWp, hWeq]
    unfold pyUrlparse pyUrlparseWith
    rw [pyUrlsplit_recon c cs (Py.lower parsed.netloc) (normalized_path parsed.path)
      parsed.query hsch2 hcolon hN hNb hP1 hPq hPh hqh0]
    dsimp only [Option.map_some']
    rw [hlcc]
    rw [if_neg (show ¬(uses_params.contains (c :: cs) ∧
      (normalized_path parsed.path).contains ';') from
      fun hc => hPs (by simpa using hc.2))]
  have hr_ne : r ≠ [] := by
    rw [← hre, hWp, hWeq]
    intro hc
    simp at hc
  unfold normalize_url
  rw [if_neg hr_ne, hparse_r]
  dsimp only
  rw [if_neg (show ¬(c :: cs = []) from fun hc => List.noConfusion hc)]
  dsimp only
  rw [hlcc, Py.lower_lower, normalized_path_idem]
  rw [← hSc]
  rw [if_pos hhttp]
  rw [hre]

/-- Witness for the amended C9 theorem at a concrete already-normal URL. -/
theorem normalize_url_idempotent_on_witness :
    normalize_url (pys "https://ex.com/docs/a/b") none =
      some (pys "https://ex.com/docs/a/b") :=
  normalize_url_idempotent_on (pys "https://ex.com/docs/a/b")
    (pys "https://ex.com/docs/a/b")
    ⟨pys "https", pys "ex.com", pys "/docs/a/b", [], [], []⟩
    (by decide) (by decide) (by decide) (by decide)
